import Mathlib

/-!
Verification of the `appc` App Connector engine (`cmd/tailscale/cli/risks.go`,
package `appc`): a DNS-driven route-advertisement engine.  This file gives a
shallow embedding of the engine's data model and operations and proves the
specified properties about them.

Machine integers (`netip.Addr` values) are embedded as `Nat` together with an
address-family flag; Go maps are embedded as association lists with
unique keys; the Go `slices` operations (`SortFunc`, `BinarySearchFunc`,
`Delete`) are embedded as executable Lean functions mirroring their
documented behaviour.
-/

namespace Appc

/-! ## Addresses and prefixes (model of `net/netip`) -/

/-- Model of `netip.Addr`: an address family flag (`is6`) plus the numeric
address value.  `netip.AddrFrom4` yields `is6 = false`, `netip.AddrFrom16`
yields `is6 = true`. -/
structure Addr where
  is6 : Bool
  val : Nat
deriving DecidableEq, Repr

/-- `netip.Addr.BitLen`: 32 for IPv4, 128 for IPv6. -/
def Addr.bitLen (a : Addr) : Nat := if a.is6 then 128 else 32

/-- Model of `netip.Addr.Compare` (used as `compareAddr` in the source):
addresses sort first by family (IPv4 before IPv6), then by address value. -/
def compareAddr (l r : Addr) : Int :=
  if l.is6 = r.is6 then
    (if l.val < r.val then -1 else if l.val = r.val then 0 else 1)
  else if l.is6 then 1 else -1

/-- Model of `netip.Prefix`: an address and a prefix length in bits. -/
structure Prefix where
  addr : Addr
  bits : Nat
deriving DecidableEq, Repr

/-- `netip.PrefixFrom(a, a.BitLen())`: the single-address prefix of `a`. -/
def Prefix.single (a : Addr) : Prefix := ⟨a, a.bitLen⟩

/-- Model of `netip.Prefix.Contains`: the families must agree, the prefix
length must be valid, and the top `bits` bits of the two address values must
coincide. -/
def Prefix.contains (p : Prefix) (a : Addr) : Bool :=
  a.is6 = p.addr.is6 && p.bits ≤ p.addr.bitLen &&
    a.val / 2 ^ (a.bitLen - p.bits) = p.addr.val / 2 ^ (p.addr.bitLen - p.bits)

/-- `netip.Prefix.IsSingleIP`. -/
def Prefix.isSingleIP (p : Prefix) : Bool := p.bits = p.addr.bitLen

/-! ### Basic facts about `compareAddr` -/

/-- The family key: IPv4 addresses sort before IPv6 ones. -/
def addrKey (a : Addr) : Nat := cond a.is6 1 0

/-- `compareAddr` is the lexicographic comparison of `(addrKey, val)`. -/
theorem compareAddr_char (l r : Addr) :
    compareAddr l r =
      (if addrKey l < addrKey r then -1
       else if addrKey r < addrKey l then 1
       else if l.val < r.val then -1
       else if l.val = r.val then 0 else 1) := by
  obtain ⟨li, lv⟩ := l; obtain ⟨ri, rv⟩ := r
  cases li <;> cases ri <;> simp [compareAddr, addrKey]

theorem addrKey_inj {l r : Addr} (h : addrKey l = addrKey r) : l.is6 = r.is6 := by
  obtain ⟨li, lv⟩ := l; obtain ⟨ri, rv⟩ := r
  cases li <;> cases ri <;> simp_all [addrKey]

theorem compareAddr_eq_zero_iff (l r : Addr) : compareAddr l r = 0 ↔ l = r := by
  rw [compareAddr_char]
  constructor
  · intro h
    split_ifs at h <;> try omega
    rename_i h1 h2 h3 h4
    have h6 : l.is6 = r.is6 := addrKey_inj (by omega)
    obtain ⟨li, lv⟩ := l; obtain ⟨ri, rv⟩ := r
    simp_all
  · intro h; subst h; split_ifs <;> omega

/-- The `≤` order induced by `compareAddr`. -/
def addrLE (l r : Addr) : Prop := compareAddr l r ≤ 0

instance : DecidableRel addrLE := fun l r => by
  unfold addrLE; infer_instance

theorem addrLE_total (l r : Addr) : addrLE l r ∨ addrLE r l := by
  simp only [addrLE, compareAddr_char]
  split_ifs <;> omega

theorem addrLE_trans {a b c : Addr} (h1 : addrLE a b) (h2 : addrLE b c) :
    addrLE a c := by
  simp only [addrLE, compareAddr_char] at h1 h2 ⊢
  split_ifs at h1 h2 ⊢ <;> omega

theorem addrLE_antisymm {a b : Addr} (h1 : addrLE a b) (h2 : addrLE b a) :
    a = b := by
  rw [← compareAddr_eq_zero_iff]
  simp only [addrLE, compareAddr_char] at h1 h2
  rw [compareAddr_char]
  split_ifs at h1 h2 ⊢ <;> omega

/-- Monotonicity of `compareAddr` in its first argument. -/
theorem compareAddr_le_mono {a b t : Addr} (h : addrLE a b) :
    compareAddr a t ≤ compareAddr b t := by
  simp only [addrLE, compareAddr_char] at h ⊢
  split_ifs at h ⊢ <;> omega

/-! ## Association lists: the model of Go maps

A Go map is modelled as an association list with unique keys; the list order
stands in for one possible (unspecified) Go map iteration order.  All the
properties proved below depend only on lookups, never on the order. -/

/-- Model of a Go `map[string]α`. -/
abbrev AList (α : Type) := List (String × α)

/-- Map lookup, `m[k]` (presence form). -/
def lookupA {α : Type} : AList α → String → Option α
  | [], _ => none
  | (k, v) :: rest, j => if k = j then some v else lookupA rest j

/-- Map assignment `m[k] = v`: replaces the binding in place, or appends. -/
def insertA {α : Type} : AList α → String → α → AList α
  | [], k, v => [(k, v)]
  | (k', v') :: rest, k, v =>
      if k' = k then (k, v) :: rest else (k', v') :: insertA rest k v

/-- Go `delete(m, k)`. -/
def eraseA {α : Type} (l : AList α) (k : String) : AList α :=
  l.filter (fun p => p.1 ≠ k)

/-- The keys of the map are distinct (always true of a real Go map). -/
def keysNodup {α : Type} (l : AList α) : Prop := (l.map Prod.fst).Nodup

instance {α : Type} (l : AList α) : Decidable (keysNodup l) := by
  unfold keysNodup; infer_instance

theorem lookupA_insertA {α : Type} (l : AList α) (k j : String) (v : α) :
    lookupA (insertA l k v) j = if k = j then some v else lookupA l j := by
  induction l with
  | nil => simp [insertA, lookupA]
  | cons p rest ih =>
    obtain ⟨k', v'⟩ := p
    by_cases hk : k' = k
    · subst hk
      simp only [insertA, if_pos rfl, lookupA]
      by_cases hj : k' = j <;> simp [hj]
    · simp only [insertA, if_neg hk, lookupA]
      by_cases hj : k' = j
      · subst hj
        have : ¬ k = k' := fun h => hk h.symm
        simp [this]
      · simp [hj, ih]

theorem lookupA_eraseA {α : Type} (l : AList α) (k j : String) :
    lookupA (eraseA l k) j = if k = j then none else lookupA l j := by
  induction l with
  | nil => simp [eraseA, lookupA]
  | cons p rest ih =>
    obtain ⟨k', v'⟩ := p
    by_cases hk : k' = k
    · subst hk
      have hdrop : eraseA ((k', v') :: rest) k' = eraseA rest k' := by
        simp [eraseA, List.filter_cons]
      rw [hdrop, ih]
      by_cases hj : k' = j
      · subst hj; simp
      · simp [lookupA, hj]
    · have hkeep : eraseA ((k', v') :: rest) k = (k', v') :: eraseA rest k := by
        simp [eraseA, List.filter_cons, hk]
      rw [hkeep]
      by_cases hj : k' = j
      · subst hj
        have hne : ¬ k = k' := fun h => hk h.symm
        simp [lookupA, hne]
      · simp [lookupA, hj, ih]

theorem keysNodup_insertA {α : Type} {l : AList α} (h : keysNodup l)
    (k : String) (v : α) : keysNodup (insertA l k v) := by
  induction l with
  | nil => simp [insertA, keysNodup]
  | cons p rest ih =>
    obtain ⟨k', v'⟩ := p
    simp only [keysNodup, List.map, List.nodup_cons] at h
    by_cases hk : k' = k
    · subst hk
      simpa [insertA, keysNodup] using h
    · simp only [insertA, if_neg hk, keysNodup, List.map, List.nodup_cons]
      refine ⟨?_, ih h.2⟩
      intro hmem
      -- k' appears among keys of insertA rest k v; those are keys of rest plus k
      have : ∀ (r : AList α), k' ∈ (insertA r k v).map Prod.fst →
          k' ∈ r.map Prod.fst ∨ k' = k := by
        intro r
        induction r with
        | nil => simp [insertA]
        | cons q qrest qih =>
          obtain ⟨qk, qv⟩ := q
          by_cases hq : qk = k
          · subst hq
            simp [insertA]
            tauto
          · simp only [insertA, if_neg hq, List.map, List.mem_cons]
            intro hin
            rcases hin with hin | hin
            · left; simp [hin]
            · rcases qih hin with h1 | h1
              · left; simp [h1]
              · right; exact h1
      rcases this rest hmem with h1 | h1
      · exact h.1 h1
      · exact hk h1

theorem keysNodup_eraseA {α : Type} {l : AList α} (h : keysNodup l)
    (k : String) : keysNodup (eraseA l k) := by
  simp only [keysNodup, eraseA] at h ⊢
  exact (List.Sublist.map Prod.fst (List.filter_sublist l)).nodup h

/-! ## String helpers (models of Go `strings` functions) -/

/-- `strings.HasSuffix`. -/
def strEndsWith (s suffix : String) : Bool := suffix.data.isSuffixOf s.data

/-- `strings.HasPrefix`. -/
def strStartsWith (s pre : String) : Bool := pre.data.isPrefixOf s.data

/-- `strings.TrimSuffix(s, t)`: removes one trailing copy of `t`, if present. -/
def strTrimSuffix (s t : String) : String :=
  if strEndsWith s t then ⟨s.data.take (s.data.length - t.data.length)⟩ else s

/-- `strings.TrimPrefix(s, t)`. -/
def strTrimPrefix (s t : String) : String :=
  if strStartsWith s t then ⟨s.data.drop t.data.length⟩ else s

/-- `strings.ToLower` (the domains here are ASCII DNS names). -/
def strToLower (s : String) : String := ⟨s.data.map Char.toLower⟩

/-- `s[2:]` for the wildcard marker `*.`. -/
def strDrop2 (s : String) : String := ⟨s.data.drop 2⟩

/-- Modelled from the spec: `dnsname.HasSuffix` (from `tailscale.com/util/dnsname`,
whose source is not included here).  Per the spec, a wildcard suffix "matches
any name ending in the suffix, including multi-label subdomains", i.e. `name`
must be a strict subdomain of `suffix`: after trimming the trailing dot of
`name` and surrounding dots of `suffix`, `name` must end in `"." ++ suffix`. -/
def hasSuffix (name suffix : String) : Bool :=
  let n := strTrimSuffix name "."
  let s := strTrimPrefix (strTrimSuffix suffix ".") "."
  !(s == "") && strEndsWith n ("." ++ s)

/-! ## Sorted address lists

`slices.SortFunc(l, compareAddr)` sorts by an antisymmetric comparator
(`compareAddr l r = 0 ↔ l = r`), so the sorted permutation of a list is
unique; any correct sorting algorithm computes the same function.  We embed
it as insertion sort and prove it sorted and a permutation. -/

/-- Insert into a sorted list. -/
def insSorted (a : Addr) : List Addr → List Addr
  | [] => [a]
  | b :: rest => if compareAddr a b ≤ 0 then a :: b :: rest else b :: insSorted a rest

/-- Model of `slices.SortFunc(l, compareAddr)`. -/
def sortAddrs : List Addr → List Addr
  | [] => []
  | a :: rest => insSorted a (sortAddrs rest)

/-- Sortedness by `compareAddr` (non-strict, duplicates allowed). -/
def SortedAddrs (l : List Addr) : Prop := l.Pairwise addrLE

instance : DecidablePred SortedAddrs := fun l => by
  unfold SortedAddrs; infer_instance

theorem insSorted_perm (a : Addr) (l : List Addr) :
    List.Perm (insSorted a l) (a :: l) := by
  induction l with
  | nil => simp [insSorted]
  | cons b rest ih =>
    simp only [insSorted]
    split_ifs with h
    · exact List.Perm.refl _
    · exact List.Perm.trans (ih.cons b) (List.Perm.swap a b rest)

theorem insSorted_sorted {a : Addr} {l : List Addr} (h : SortedAddrs l) :
    SortedAddrs (insSorted a l) := by
  induction l with
  | nil => simp [insSorted, SortedAddrs]
  | cons b rest ih =>
    simp only [SortedAddrs, List.pairwise_cons] at h
    simp only [insSorted]
    split_ifs with hc
    · -- a precedes b; a ≤ everything after
      refine List.Pairwise.cons ?_ (List.Pairwise.cons h.1 h.2)
      intro x hx
      rcases List.mem_cons.mp hx with hx | hx
      · subst hx; exact hc
      · exact addrLE_trans hc (h.1 x hx)
    · -- b stays first; insert into the tail
      have hb : addrLE b a := by
        rcases addrLE_total a b with h1 | h1
        · exact absurd h1 hc
        · exact h1
      refine List.Pairwise.cons ?_ (ih h.2)
      intro x hx
      have hx' : x ∈ a :: rest := (insSorted_perm a rest).mem_iff.mp hx
      rcases List.mem_cons.mp hx' with hx' | hx'
      · subst hx'; exact hb
      · exact h.1 x hx'

theorem sortAddrs_perm (l : List Addr) : List.Perm (sortAddrs l) l := by
  induction l with
  | nil => simp [sortAddrs]
  | cons a rest ih =>
    exact List.Perm.trans (insSorted_perm a (sortAddrs rest)) (ih.cons a)

theorem sortAddrs_sorted (l : List Addr) : SortedAddrs (sortAddrs l) := by
  induction l with
  | nil => simp [sortAddrs, SortedAddrs]
  | cons a rest ih => exact insSorted_sorted ih

theorem sortAddrs_mem (l : List Addr) (a : Addr) :
    a ∈ sortAddrs l ↔ a ∈ l := (sortAddrs_perm l).mem_iff

theorem sortAddrs_nodup {l : List Addr} (h : l.Nodup) : (sortAddrs l).Nodup :=
  (sortAddrs_perm l).nodup_iff.mpr h

/-! ## Binary search (model of `slices.BinarySearchFunc`) -/

/-- A throwaway default for out-of-range indexing (never reached on the
in-range indices the search inspects). -/
def addrZero : Addr := ⟨false, 0⟩

/-- The halving loop of Go's `slices.BinarySearchFunc(xs, t, compareAddr)`:
narrows `[i, j)` to the least index whose element compares `≥ 0` against
`t`. -/
def bsearchLoop (xs : List Addr) (t : Addr) (i j : Nat) : Nat :=
  if _h : i < j then
    if compareAddr (xs.getD ((i + j) / 2) addrZero) t < 0 then
      bsearchLoop xs t ((i + j) / 2 + 1) j
    else
      bsearchLoop xs t i ((i + j) / 2)
  else i
termination_by j - i
decreasing_by all_goals omega

/-- Model of `slices.BinarySearchFunc(xs, t, compareAddr)`: the insertion
position and whether the target was found. -/
def binarySearchAddr (xs : List Addr) (t : Addr) : Nat × Bool :=
  let i := bsearchLoop xs t 0 xs.length
  (i, decide (i < xs.length ∧ compareAddr (xs.getD i addrZero) t = 0))

theorem bsearchLoop_le {xs t} : ∀ fuel i j, j - i ≤ fuel → i ≤ j →
    i ≤ bsearchLoop xs t i j ∧ bsearchLoop xs t i j ≤ j := by
  intro fuel
  induction fuel with
  | zero =>
    intro i j hf hij
    have : ¬ i < j := by omega
    rw [bsearchLoop, dif_neg this]
    omega
  | succ n ih =>
    intro i j hf hij
    by_cases hlt : i < j
    · rw [bsearchLoop, dif_pos hlt]
      split_ifs with hc
      · have h1 := ih ((i + j) / 2 + 1) j (by omega) (by omega)
        omega
      · have h1 := ih i ((i + j) / 2) (by omega) (by omega)
        omega
    · rw [bsearchLoop, dif_neg hlt]; omega

/-- Loop invariant: the search result `r` has everything strictly below it
comparing `< 0` at its left boundary, and `≥ 0` at `r` itself. -/
theorem bsearchLoop_bound {xs t} : ∀ fuel i j, j - i ≤ fuel →
    i ≤ j → j ≤ xs.length →
    (0 < i → compareAddr (xs.getD (i - 1) addrZero) t < 0) →
    (j < xs.length → 0 ≤ compareAddr (xs.getD j addrZero) t) →
    (0 < bsearchLoop xs t i j →
       compareAddr (xs.getD (bsearchLoop xs t i j - 1) addrZero) t < 0) ∧
    (bsearchLoop xs t i j < xs.length →
       0 ≤ compareAddr (xs.getD (bsearchLoop xs t i j) addrZero) t) := by
  intro fuel
  induction fuel with
  | zero =>
    intro i j hf hij hjn hlo hhi
    have hne : ¬ i < j := by omega
    rw [bsearchLoop, dif_neg hne]
    have : i = j := by omega
    subst this
    exact ⟨hlo, hhi⟩
  | succ n ih =>
    intro i j hf hij hjn hlo hhi
    by_cases hlt : i < j
    · rw [bsearchLoop, dif_pos hlt]
      split_ifs with hc
      · refine ih ((i + j) / 2 + 1) j (by omega) (by omega) hjn ?_ hhi
        intro _
        simpa using hc
      · refine ih i ((i + j) / 2) (by omega) (by omega) (by omega) hlo ?_
        intro _
        omega
    · rw [bsearchLoop, dif_neg hlt]
      have : i = j := by omega
      subst this
      exact ⟨hlo, hhi⟩

/-- On a sorted list, the binary-search membership answer coincides with
linear membership (Go's binary search agrees with a linear scan). -/
theorem binarySearchAddr_found_iff {xs : List Addr} (hs : SortedAddrs xs)
    (t : Addr) : (binarySearchAddr xs t).2 = true ↔ t ∈ xs := by
  have hsort : ∀ m n, m ≤ n → n < xs.length →
      addrLE (xs.getD m addrZero) (xs.getD n addrZero) := by
    intro m n hmn hn
    rcases Nat.eq_or_lt_of_le hmn with h | h
    · subst h
      rcases addrLE_total (xs.getD m addrZero) (xs.getD m addrZero) with h | h <;>
        exact h
    · have := List.pairwise_iff_get.mp hs ⟨m, by omega⟩ ⟨n, hn⟩ h
      simpa [List.getD_eq_getElem?_getD, List.getElem?_eq_getElem, hn,
        show m < xs.length by omega] using this
  have hle := @bsearchLoop_le xs t xs.length 0 xs.length
    (by omega) (by omega)
  have hbd := @bsearchLoop_bound xs t xs.length 0 xs.length
    (by omega) (by omega) (by omega) (by omega) (by omega)
  set r := bsearchLoop xs t 0 xs.length with hr
  constructor
  · intro h
    simp only [binarySearchAddr, decide_eq_true_eq] at h
    rw [← hr] at h
    obtain ⟨hrn, hc⟩ := h
    have : xs.getD r addrZero = t := (compareAddr_eq_zero_iff _ _).mp hc
    rw [← this]
    have := List.getD_eq_getElem?_getD xs r addrZero
    rw [this, List.getElem?_eq_getElem hrn]
    exact List.getElem_mem _
  · intro hmem
    simp only [binarySearchAddr, decide_eq_true_eq]
    rw [← hr]
    obtain ⟨k, hk, hkt⟩ := List.getElem_of_mem hmem
    have hkD : xs.getD k addrZero = t := by
      rw [List.getD_eq_getElem?_getD, List.getElem?_eq_getElem hk, hkt]
      rfl
    -- k cannot be below r: everything below r compares < 0
    have hk_ge : r ≤ k := by
      by_contra hlt
      have h1 : 0 < r := by omega
      have h2 := hbd.1 h1
      have h3 : addrLE (xs.getD k addrZero) (xs.getD (r - 1) addrZero) :=
        hsort k (r - 1) (by omega) (by omega)
      have h4 : compareAddr (xs.getD k addrZero) t ≤
          compareAddr (xs.getD (r - 1) addrZero) t := compareAddr_le_mono h3
      rw [hkD] at h4
      have h5 : compareAddr t t = 0 := (compareAddr_eq_zero_iff t t).mpr rfl
      omega
    have hrn : r < xs.length := by omega
    refine ⟨hrn, ?_⟩
    have h2 := hbd.2 hrn
    have h3 : addrLE (xs.getD r addrZero) (xs.getD k addrZero) :=
      hsort r k hk_ge hk
    have h4 : compareAddr (xs.getD r addrZero) t ≤
        compareAddr (xs.getD k addrZero) t := compareAddr_le_mono h3
    rw [hkD] at h4
    have h5 : compareAddr t t = 0 := (compareAddr_eq_zero_iff t t).mpr rfl
    omega

/-! ## Per-domain address lists: `hasDomainAddrLocked`, `addDomainAddrLocked`,
`deleteDomainAddrLocked`, expressed on the underlying list. -/

/-- `hasDomainAddrLocked`, on the domain's list:
`slices.BinarySearchFunc(e.domains[domain], addr, compareAddr)` found-bit. -/
def hasDomainAddrList (l : List Addr) (addr : Addr) : Bool :=
  (binarySearchAddr l addr).2

/-- `addDomainAddrLocked`, on the domain's list: append, then
`slices.SortFunc(..., compareAddr)`. -/
def addDomainAddrList (l : List Addr) (addr : Addr) : List Addr :=
  sortAddrs (l ++ [addr])

/-- `deleteDomainAddrLocked`, on the domain's list: binary search; if absent,
no change; otherwise `slices.Delete(l, ind, ind+1)` followed by
`slices.SortFunc`. -/
def deleteDomainAddrList (l : List Addr) (addr : Addr) : List Addr :=
  let res := binarySearchAddr l addr
  if res.2 then sortAddrs (l.take res.1 ++ l.drop (res.1 + 1)) else l

/-- The linear scan that `hasDomainAddrLocked` must agree with. -/
def linearScanAddr (l : List Addr) (addr : Addr) : Bool :=
  l.any (fun b => compareAddr b addr = 0)

theorem linearScanAddr_iff_mem (l : List Addr) (a : Addr) :
    linearScanAddr l a = true ↔ a ∈ l := by
  simp only [linearScanAddr, List.any_eq_true, decide_eq_true_eq]
  constructor
  · rintro ⟨b, hb, hc⟩
    have : b = a := (compareAddr_eq_zero_iff b a).mp hc
    subst this; exact hb
  · intro h
    exact ⟨a, h, (compareAddr_eq_zero_iff a a).mpr rfl⟩

theorem hasDomainAddrList_iff_mem {l : List Addr} (hs : SortedAddrs l)
    (a : Addr) : hasDomainAddrList l a = true ↔ a ∈ l :=
  binarySearchAddr_found_iff hs a

theorem addDomainAddrList_sorted (l : List Addr) (a : Addr) :
    SortedAddrs (addDomainAddrList l a) := sortAddrs_sorted _

theorem addDomainAddrList_mem (l : List Addr) (a b : Addr) :
    b ∈ addDomainAddrList l a ↔ b ∈ l ∨ b = a := by
  simp [addDomainAddrList, sortAddrs_mem]

theorem addDomainAddrList_nodup {l : List Addr} (hn : l.Nodup) {a : Addr}
    (ha : a ∉ l) : (addDomainAddrList l a).Nodup := by
  refine sortAddrs_nodup ?_
  simpa [List.nodup_append] using ⟨hn, ha⟩

theorem deleteDomainAddrList_sorted {l : List Addr} (hs : SortedAddrs l)
    (a : Addr) : SortedAddrs (deleteDomainAddrList l a) := by
  unfold deleteDomainAddrList
  simp only []
  split_ifs with h
  · exact sortAddrs_sorted _
  · exact hs

theorem deleteDomainAddrList_sublist (l : List Addr) (a : Addr) :
    ∃ l', (deleteDomainAddrList l a).Perm l' ∧ l'.Sublist l := by
  unfold deleteDomainAddrList
  simp only []
  split_ifs with h
  · refine ⟨l.take (binarySearchAddr l a).1 ++ l.drop ((binarySearchAddr l a).1 + 1),
      sortAddrs_perm _, ?_⟩
    have h1 : l.take (binarySearchAddr l a).1 ++ l.drop ((binarySearchAddr l a).1 + 1)
        = l.eraseIdx (binarySearchAddr l a).1 := (List.eraseIdx_eq_take_drop_succ ..).symm
    rw [h1]
    exact List.eraseIdx_sublist ..
  · exact ⟨l, List.Perm.refl l, List.Sublist.refl l⟩

theorem deleteDomainAddrList_nodup {l : List Addr} (hn : l.Nodup) (a : Addr) :
    (deleteDomainAddrList l a).Nodup := by
  obtain ⟨l', hperm, hsub⟩ := deleteDomainAddrList_sublist l a
  exact hperm.nodup_iff.mpr (hsub.nodup hn)

/-! ## Engine state -/

/-- Modelled from the spec: `ipn.DatedRoute` (from `tailscale.com/ipn`, whose
source is not included here) — "per domain, a persisted record of which
address-derived routes have been established and when".  Embedded as a list
of routes with the (abstract, `Nat`-valued) time each was last seen. -/
structure DatedRoute where
  routes : List (Prefix × Nat)
deriving DecidableEq, Repr

/-- Model of `ipn.RouteInfo`: the durable snapshot combining the operator
(control) route set `Corp` and the per-domain discovered-route records.  The
`Discovered` map holds `*ipn.DatedRoute` pointers, hence `Option DatedRoute`
values (a present key may hold a nil pointer). -/
structure RouteInfo where
  Corp : List Prefix
  Discovered : AList (Option DatedRoute)
deriving DecidableEq, Repr

/-- The mutable fields of `AppConnector` guarded by `e.mu`. -/
structure AppConnector where
  /-- `domains`: map of lower-case domain names (no trailing dot) to the
  ordered list of resolved addresses. -/
  domains : AList (List Addr)
  /-- `controlRoutes`: the routes last supplied by control. -/
  controlRoutes : List Prefix
  /-- `wildcards`: the domain suffixes matching subdomains. -/
  wildcards : List String
deriving DecidableEq, Repr

/-- `NewAppConnector`: all fields start nil/empty. -/
def initialConn : AppConnector := ⟨[], [], []⟩

/-- Calls made to the `RouteAdvertiser` collaborator, in order. -/
inductive Call where
  | advertise (routes : List Prefix)
  | unadvertise (routes : List Prefix)
  | updateStore (ri : RouteInfo)
deriving DecidableEq, Repr

def Call.isAdvertise : Call → Bool
  | .advertise _ => true
  | _ => false

def Call.isUnadvertise : Call → Bool
  | .unadvertise _ => true
  | _ => false

/-! ## `updateDomains`

`updateDomains` builds fresh exact-domain and discovered-route maps from the
old ones in one pass over the input list, then carries forward old entries
matching the new wildcards.  Its main loop updates the `domains` map and the
`Discovered` map in lockstep with the same structure, so the loop is stated
once, generically in the value type (`List Addr` with default `nil` slice,
`Option DatedRoute` with default nil pointer). -/

/-- The body of `updateDomains`' first loop, acting on one of the two maps:
for each input name `d` (lowercased; empties and wildcards skipped):
`new[d] = old[d]` (zero value if absent) and `delete(old, d)`. -/
def loopMap {α : Type} (dflt : α) : List String → AList α → AList α →
    AList α × AList α
  | [], newM, oldM => (newM, oldM)
  | d :: rest, newM, oldM =>
    let d' := strToLower d
    if d' = "" then loopMap dflt rest newM oldM
    else if strStartsWith d' "*." then loopMap dflt rest newM oldM
    else loopMap dflt rest (insertA newM d' ((lookupA oldM d').getD dflt))
      (eraseA oldM d')

/-- The exact names of an input list, normalized in order (lowercased,
empties and wildcard entries dropped). -/
def normExacts (domains : List String) : List String :=
  domains.filterMap (fun d =>
    let d' := strToLower d
    if d' = "" then none
    else if strStartsWith d' "*." then none
    else some d')

/-- The wildcard suffixes of an input list, normalized in order (lowercased,
`*.` marker stripped). -/
def normWilds (domains : List String) : List String :=
  domains.filterMap (fun d =>
    let d' := strToLower d
    if d' = "" then none
    else if strStartsWith d' "*." then some (strDrop2 d') else none)

/-- The wildcard carry-forward loops of `updateDomains`: each old entry whose
key matches one of the (new) wildcard suffixes is copied into the new map. -/
def carryWild {α : Type} (wilds : List String) (old : AList α) (acc : AList α) :
    AList α :=
  old.foldl
    (fun acc p =>
      if wilds.any (fun wc => hasSuffix p.1 wc) then insertA acc p.1 p.2 else acc)
    acc

/-- `updateDomains(domains)`: replaces the configured domains.  Takes the
persisted snapshot read from the store and returns the new connector state,
the snapshot written back, and the collaborator calls made. -/
def updateDomains (conn : AppConnector) (store : RouteInfo)
    (domains : List String) : AppConnector × RouteInfo × List Call :=
  let pairD := loopMap ([] : List Addr) domains [] conn.domains
  let pairR := loopMap (none : Option DatedRoute) domains [] store.Discovered
  let wilds := normWilds domains
  let finalD := carryWild wilds pairD.2 pairD.1
  let finalDisc := carryWild wilds pairR.2 pairR.1
  let store' := { store with Discovered := finalDisc }
  ({ conn with domains := finalD, wildcards := wilds }, store',
    [Call.updateStore store'])

/-! ### Characterization of `updateDomains` -/

theorem loopMap_old_lookup {α : Type} (dflt : α) (domains : List String) :
    ∀ (newM oldM : AList α) (j : String),
    lookupA (loopMap dflt domains newM oldM).2 j =
      if j ∈ normExacts domains then none else lookupA oldM j := by
  induction domains with
  | nil => intro newM oldM j; simp [loopMap, normExacts]
  | cons d rest ih =>
    intro newM oldM j
    by_cases he : strToLower d = ""
    · simp only [loopMap, he, if_pos rfl, normExacts, List.filterMap_cons]
      simpa [he, normExacts] using ih newM oldM j
    · by_cases hw : strStartsWith (strToLower d) "*."
      · simp only [loopMap, he, hw, if_neg he, if_pos hw, normExacts,
          List.filterMap_cons]
        simpa [he, hw, normExacts] using ih newM oldM j
      · have hexp : normExacts (d :: rest) = strToLower d :: normExacts rest := by
          simp [normExacts, List.filterMap_cons, he, hw]
        simp only [loopMap, if_neg he, if_neg hw]
        rw [ih, hexp]
        by_cases hj : j = strToLower d
        · subst hj
          by_cases hr : strToLower d ∈ normExacts rest <;>
            simp [hr, lookupA_eraseA]
        · have : j ∈ strToLower d :: normExacts rest ↔ j ∈ normExacts rest := by
            simp [hj]
          rw [lookupA_eraseA]
          have hne : ¬ strToLower d = j := fun h => hj h.symm
          by_cases hr : j ∈ normExacts rest <;> simp [hr, hj, hne, this]

theorem loopMap_new_lookup {α : Type} (dflt : α) (domains : List String) :
    ∀ (newM oldM : AList α) (j : String),
    lookupA (loopMap dflt domains newM oldM).1 j =
      if j ∈ normExacts domains then
        some (if 2 ≤ (normExacts domains).count j then dflt
          else (lookupA oldM j).getD dflt)
      else lookupA newM j := by
  induction domains with
  | nil => intro newM oldM j; simp [loopMap, normExacts]
  | cons d rest ih =>
    intro newM oldM j
    by_cases he : strToLower d = ""
    · have hexp : normExacts (d :: rest) = normExacts rest := by
        simp [normExacts, List.filterMap_cons, he]
      simp only [loopMap, he, if_pos rfl, hexp]
      exact ih newM oldM j
    · by_cases hw : strStartsWith (strToLower d) "*."
      · have hexp : normExacts (d :: rest) = normExacts rest := by
          simp [normExacts, List.filterMap_cons, he, hw]
        simp only [loopMap, if_neg he, if_pos hw, hexp]
        exact ih newM oldM j
      · have hexp : normExacts (d :: rest) = strToLower d :: normExacts rest := by
          simp [normExacts, List.filterMap_cons, he, hw]
        simp only [loopMap, if_neg he, if_neg hw]
        rw [ih, hexp]
        generalize strToLower d = x
        by_cases hj : j = x
        · subst hj
          by_cases hr : j ∈ normExacts rest
          · -- later occurrence: the old entry was already deleted
            rw [if_pos hr]
            have h1 : lookupA (eraseA oldM j) j = none := by
              rw [lookupA_eraseA]; simp
            rw [h1]
            have hcnt : 2 ≤ (j :: normExacts rest).count j := by
              have h2 : 0 < (normExacts rest).count j :=
                List.count_pos_iff.mpr hr
              rw [List.count_cons_self]; omega
            rw [if_pos (List.mem_cons_self j _), if_pos hcnt]
            by_cases h2 : 2 ≤ (normExacts rest).count j <;> simp [h2]
          · -- single occurrence
            rw [if_neg hr, lookupA_insertA, if_pos rfl]
            have h0 : (normExacts rest).count j = 0 :=
              List.count_eq_zero.mpr hr
            have hcnt : ¬ 2 ≤ (j :: normExacts rest).count j := by
              rw [List.count_cons_self, h0]; omega
            rw [if_pos (List.mem_cons_self j _), if_neg hcnt]
        · have hxj : ¬ x = j := fun h => hj h.symm
          have hcnt : (x :: normExacts rest).count j = (normExacts rest).count j :=
            List.count_cons_of_ne hj _
          rw [lookupA_eraseA, lookupA_insertA]
          simp [hxj, hj, hcnt]

theorem lookupA_eq_none_of_not_mem {α : Type} {l : AList α} {k : String}
    (h : k ∉ l.map Prod.fst) : lookupA l k = none := by
  induction l with
  | nil => rfl
  | cons p rest ih =>
    obtain ⟨q, v⟩ := p
    simp only [List.map, List.mem_cons, not_or] at h
    have hne : ¬ q = k := fun hc => h.1 hc.symm
    simp only [lookupA, if_neg hne]
    exact ih h.2

theorem carryWild_lookup {α : Type} (wilds : List String) :
    ∀ (old acc : AList α), keysNodup old → ∀ j,
    lookupA (carryWild wilds old acc) j =
      if wilds.any (fun wc => hasSuffix j wc) then
        (lookupA old j).or (lookupA acc j)
      else lookupA acc j := by
  intro old
  induction old with
  | nil =>
    intro acc _ j
    simp [carryWild, lookupA]
  | cons p rest ih =>
    intro acc hnd j
    obtain ⟨k, v⟩ := p
    have hnotin : k ∉ rest.map Prod.fst := by
      simp only [keysNodup, List.map, List.nodup_cons] at hnd
      exact hnd.1
    have hnd2 : keysNodup rest := by
      simp only [keysNodup, List.map, List.nodup_cons] at hnd
      exact hnd.2
    have hstep : carryWild wilds ((k, v) :: rest) acc =
        carryWild wilds rest
          (if wilds.any (fun wc => hasSuffix k wc) then insertA acc k v
           else acc) := by
      simp [carryWild, List.foldl_cons]
    rw [hstep, ih _ hnd2 j]
    by_cases hj : k = j
    · subst hj
      rw [lookupA_eq_none_of_not_mem hnotin]
      have hhead : lookupA ((k, v) :: rest) k = some v := by simp [lookupA]
      rw [hhead]
      split_ifs with hmatch
      · simp [lookupA_insertA]
      · rfl
    · have hhead : lookupA ((k, v) :: rest) j = lookupA rest j := by
        simp [lookupA, hj]
      rw [hhead]
      split_ifs <;> simp [lookupA_insertA, hj]

theorem keysNodup_loopMap_old {α : Type} (dflt : α) (domains : List String) :
    ∀ (newM oldM : AList α), keysNodup oldM →
      keysNodup (loopMap dflt domains newM oldM).2 := by
  induction domains with
  | nil => intro newM oldM h; exact h
  | cons d rest ih =>
    intro newM oldM h
    by_cases he : strToLower d = ""
    · simpa [loopMap, he] using ih newM oldM h
    · by_cases hw : strStartsWith (strToLower d) "*."
      · simpa [loopMap, he, hw] using ih newM oldM h
      · simpa [loopMap, he, hw] using
          ih _ _ (keysNodup_eraseA h (strToLower d))

theorem keysNodup_loopMap_new {α : Type} (dflt : α) (domains : List String) :
    ∀ (newM oldM : AList α), keysNodup newM →
      keysNodup (loopMap dflt domains newM oldM).1 := by
  induction domains with
  | nil => intro newM oldM h; exact h
  | cons d rest ih =>
    intro newM oldM h
    by_cases he : strToLower d = ""
    · simpa [loopMap, he] using ih newM oldM h
    · by_cases hw : strStartsWith (strToLower d) "*."
      · simpa [loopMap, he, hw] using ih newM oldM h
      · simpa [loopMap, he, hw] using
          ih _ _ (keysNodup_insertA h (strToLower d) _)

theorem keysNodup_carryWild {α : Type} (wilds : List String) :
    ∀ (old acc : AList α), keysNodup acc →
      keysNodup (carryWild wilds old acc) := by
  intro old
  induction old with
  | nil => intro acc h; exact h
  | cons p rest ih =>
    intro acc h
    obtain ⟨k, v⟩ := p
    have hstep : carryWild wilds ((k, v) :: rest) acc =
        carryWild wilds rest
          (if wilds.any (fun wc => hasSuffix k wc) then insertA acc k v
           else acc) := by
      simp [carryWild, List.foldl_cons]
    rw [hstep]
    refine ih _ ?_
    split_ifs with hm
    · exact keysNodup_insertA h k v
    · exact h

/-- Lookup characterization of the map rebuild performed by `updateDomains`
(the same shape for the `domains` map and the `Discovered` map): an exact
name keeps its old value (the zero value if it occurs more than once in the
input — the later occurrence reads the already-deleted old map); any other
old key survives exactly when it matches one of the new wildcards. -/
theorem rebuildMap_lookup {α : Type} (dflt : α) (domains : List String)
    (old : AList α) (hnd : keysNodup old) (j : String) :
    lookupA (carryWild (normWilds domains) (loopMap dflt domains [] old).2
        (loopMap dflt domains [] old).1) j =
      if j ∈ normExacts domains then
        some (if 2 ≤ (normExacts domains).count j then dflt
          else (lookupA old j).getD dflt)
      else if (normWilds domains).any (fun wc => hasSuffix j wc) then
        lookupA old j
      else none := by
  rw [carryWild_lookup (normWilds domains) _ _
      (keysNodup_loopMap_old dflt domains [] old hnd) j,
    loopMap_old_lookup, loopMap_new_lookup]
  by_cases hex : j ∈ normExacts domains <;>
    by_cases hm : (normWilds domains).any (fun wc => hasSuffix j wc) <;>
      simp [hex, hm, lookupA, Option.or_none, Option.none_or]

/-- `updateDomains` characterization, `domains` map. -/
theorem updateDomains_domains_lookup (conn : AppConnector) (store : RouteInfo)
    (domains : List String) (hnd : keysNodup conn.domains) (j : String) :
    lookupA (updateDomains conn store domains).1.domains j =
      if j ∈ normExacts domains then
        some (if 2 ≤ (normExacts domains).count j then []
          else (lookupA conn.domains j).getD [])
      else if (normWilds domains).any (fun wc => hasSuffix j wc) then
        lookupA conn.domains j
      else none := by
  exact rebuildMap_lookup ([] : List Addr) domains conn.domains hnd j

/-- `updateDomains` characterization, persisted `Discovered` map. -/
theorem updateDomains_discovered_lookup (conn : AppConnector)
    (store : RouteInfo) (domains : List String)
    (hnd : keysNodup store.Discovered) (j : String) :
    lookupA (updateDomains conn store domains).2.1.Discovered j =
      if j ∈ normExacts domains then
        some (if 2 ≤ (normExacts domains).count j then none
          else (lookupA store.Discovered j).getD none)
      else if (normWilds domains).any (fun wc => hasSuffix j wc) then
        lookupA store.Discovered j
      else none := by
  exact rebuildMap_lookup (none : Option DatedRoute) domains store.Discovered hnd j

theorem updateDomains_wildcards (conn : AppConnector) (store : RouteInfo)
    (domains : List String) :
    (updateDomains conn store domains).1.wildcards = normWilds domains := rfl

theorem updateDomains_controlRoutes (conn : AppConnector) (store : RouteInfo)
    (domains : List String) :
    (updateDomains conn store domains).1.controlRoutes = conn.controlRoutes := rfl

theorem updateDomains_corp (conn : AppConnector) (store : RouteInfo)
    (domains : List String) :
    (updateDomains conn store domains).2.1.Corp = store.Corp := rfl

theorem updateDomains_calls (conn : AppConnector) (store : RouteInfo)
    (domains : List String) :
    (updateDomains conn store domains).2.2 =
      [Call.updateStore (updateDomains conn store domains).2.1] := rfl

theorem updateDomains_domains_keysNodup (conn : AppConnector)
    (store : RouteInfo) (domains : List String) :
    keysNodup (updateDomains conn store domains).1.domains := by
  refine keysNodup_carryWild _ _ _ ?_
  exact keysNodup_loopMap_new _ domains [] conn.domains (by simp [keysNodup])

theorem updateDomains_discovered_keysNodup (conn : AppConnector)
    (store : RouteInfo) (domains : List String) :
    keysNodup (updateDomains conn store domains).2.1.Discovered := by
  refine keysNodup_carryWild _ _ _ ?_
  exact keysNodup_loopMap_new _ domains [] store.Discovered (by simp [keysNodup])

/-! ## `updateRoutes` -/

/-- The innermost scan of `updateRoutes`' subsumption loop over one domain's
address list: the first address with `r.Contains(a)` and
`netip.PrefixFrom(a, a.BitLen()) != r`. -/
def firstSubsumedInAddrs (r : Prefix) : List Addr → Option Addr
  | [] => none
  | a :: rest =>
    if r.contains a = true ∧ Prefix.single a ≠ r then some a
    else firstSubsumedInAddrs r rest

/-- The `for _, addr := range e.domains` scan (with `continue nextRoute` on
the first hit): the first subsumed address over all domains' lists. -/
def firstSubsumedInDomains (r : Prefix) : AList (List Addr) → Option Addr
  | [] => none
  | (_, addrs) :: rest =>
    match firstSubsumedInAddrs r addrs with
    | some a => some a
    | none => firstSubsumedInDomains r rest

/-- `updateRoutes(routes)`.  `advOk` models whether the collaborator's
`AdvertiseRoute` call succeeds (`UnadvertiseRoute` failures are only logged,
so they need no oracle; `UpdateRoutesInfoToStore`'s error is discarded).
Returns the new connector state, the persisted snapshot (unchanged when not
written), and the collaborator calls made in order. -/
def updateRoutes (conn : AppConnector) (store : RouteInfo)
    (advOk : List Prefix → Bool) (routes : List Prefix) :
    AppConnector × RouteInfo × List Call :=
  if conn.controlRoutes = routes then (conn, store, [])
  else
    let toRemove := store.Corp.filter (fun p => decide (p ∉ routes))
    let ri : RouteInfo := { store with Corp := routes }
    if advOk routes then
      let toRemove2 := routes.filterMap
        (fun r => (firstSubsumedInDomains r conn.domains).map Prefix.single)
      ({ conn with controlRoutes := routes }, ri,
        [Call.unadvertise toRemove, Call.advertise routes,
         Call.unadvertise toRemove2, Call.updateStore ri])
    else
      (conn, store, [Call.unadvertise toRemove, Call.advertise routes])

/-! ## DNS observation: matching, classification, scheduling -/

/-- `findRoutedDomainLocked`, fuel-bounded (the Go loop diverges on a cyclic
alias chain with no match; `none` models that divergence).  Each iteration:
exact-map hit returns `(domain, true)`; otherwise a wildcard match lazily
inserts a nil entry for `domain` and sets the flag — but the loop does
not stop there: it still follows the alias edge if one exists, and the flag
is recomputed at the next name. -/
def findRoutedDomainLocked (wildcards : List String) (cnameChain : AList String) :
    Nat → AList (List Addr) → String →
    Option (AList (List Addr) × String × Bool)
  | 0, _, _ => none
  | fuel + 1, doms, domain =>
    if (lookupA doms domain).isSome then some (doms, domain, true)
    else
      let matched := wildcards.any (fun wc => hasSuffix domain wc)
      let doms2 := if matched then insertA doms domain [] else doms
      match lookupA cnameChain domain with
      | none => some (doms2, domain, matched)
      | some next => findRoutedDomainLocked wildcards cnameChain fuel doms2 next

/-- `isAddrKnownLocked`: binary-search membership first; otherwise, if some
control route covers the address, it is recorded for the domain (a map write
inside a read path) and reported known. -/
def isAddrKnownLocked (doms : AList (List Addr)) (controlRoutes : List Prefix)
    (domain : String) (addr : Addr) : Bool × AList (List Addr) :=
  if hasDomainAddrList ((lookupA doms domain).getD []) addr then (true, doms)
  else if controlRoutes.any (fun route => route.contains addr) then
    (true,
      insertA doms domain (addDomainAddrList ((lookupA doms domain).getD []) addr))
  else (false, doms)

/-- The classification loop of `ObserveDNSResponse` (lines building
`toAdvertise` / `toUpdateDate`): returns the extended domains map and the
two prefix lists, in input order. -/
def classifyAddrs (controlRoutes : List Prefix) (domain : String) :
    AList (List Addr) → List Addr →
    AList (List Addr) × List Prefix × List Prefix
  | doms, [] => (doms, [], [])
  | doms, addr :: rest =>
    let known := isAddrKnownLocked doms controlRoutes domain addr
    let out := classifyAddrs controlRoutes domain known.2 rest
    if known.1 then (out.1, out.2.1, Prefix.single addr :: out.2.2)
    else (out.1, Prefix.single addr :: out.2.1, out.2.2)

/-- Modelled from the spec: `ipn.RouteInfo.UpdateRoutesInDiscoveredForDomain`
(`tailscale.com/ipn`, source not included) — refreshes, at the current
(abstract) time `now`, the discovered-route record of `domain` with the
routes of the latest classification; other recorded routes keep their old
timestamp. -/
def updateRoutesInDiscoveredForDomain (ri : RouteInfo) (now : Nat)
    (domain : String) (routes : List Prefix) : RouteInfo :=
  let old := (((lookupA ri.Discovered domain).getD none).map
    DatedRoute.routes).getD []
  let kept := old.filter (fun pt => decide (pt.1 ∉ routes))
  let disc := insertA ri.Discovered domain
    (some ⟨kept ++ routes.map (fun r => (r, now))⟩)
  { ri with Discovered := disc }

/-- Modelled from the spec: `ipn.RouteInfo.OutDatedRoutesInDiscoveredForDomain`
(`tailscale.com/ipn`, source not included) — the routes recorded for `domain`
that were not refreshed at `now` (present in the record, absent from the
latest classification). -/
def outDatedRoutesInDiscoveredForDomain (ri : RouteInfo) (now : Nat)
    (domain : String) : List Prefix :=
  (((((lookupA ri.Discovered domain).getD none).map DatedRoute.routes).getD
    []).filter (fun pt => decide (pt.2 < now))).map Prod.fst

/-- A task added to the async apply queue by `ObserveDNSResponse`. -/
inductive QTask where
  | advertiseTask (domain : String) (routes : List Prefix)
  | unadvertiseTask (domain : String) (routes : List Prefix)
deriving DecidableEq, Repr

/-- Result of `ObserveDNSResponse`: connector state, persisted snapshot,
store-write calls made synchronously, and tasks scheduled on the queue. -/
structure ObserveResult where
  conn : AppConnector
  store : RouteInfo
  calls : List Call
  tasks : List QTask
deriving DecidableEq, Repr

/-! ## DNS wire-format parsing

Model of the external `golang.org/x/net/dns/dnsmessage` parser as used by
`ObserveDNSResponse` (library source not part of this repository; per the
spec the input is "raw DNS response messages in standard DNS message wire
format").  The parse phase runs before the lock is taken and touches no
engine state; every malformed section aborts with `none`. -/

/-- One byte of the message. -/
def byteAt (msg : List Nat) (off : Nat) : Option Nat := msg.get? off

/-- A big-endian 16-bit field. -/
def word16 (msg : List Nat) (off : Nat) : Option Nat :=
  match byteAt msg off, byteAt msg (off + 1) with
  | some a, some b => some (a * 256 + b)
  | _, _ => none

/-- The text of one label. -/
def labelStr (bytes : List Nat) : String := ⟨bytes.map Char.ofNat⟩

/-- DNS name parsing with compression pointers, fuel-bounded (the library
bounds pointer chasing too).  Returns the dotted name (with trailing dot,
root = empty) and the offset just past the name in the record being parsed
(fixed at the first pointer). -/
def parseNameAux (msg : List Nat) : Nat → Nat → Option Nat →
    Option (String × Nat)
  | 0, _, _ => none
  | fuel + 1, off, fixedEnd =>
    match byteAt msg off with
    | none => none
    | some b =>
      if b = 0 then some ("", fixedEnd.getD (off + 1))
      else if b ≤ 63 then
        if off + 1 + b ≤ msg.length then
          match parseNameAux msg fuel (off + 1 + b) fixedEnd with
          | some (rest, e) =>
            some (labelStr ((msg.drop (off + 1)).take b) ++ "." ++ rest, e)
          | none => none
        else none
      else if 192 ≤ b ∧ b ≤ 255 then
        match byteAt msg (off + 1) with
        | some b2 =>
          parseNameAux msg fuel ((b - 192) * 256 + b2)
            (some (fixedEnd.getD (off + 2)))
        | none => none
      else none

def parseName (msg : List Nat) (off : Nat) : Option (String × Nat) :=
  parseNameAux msg (msg.length + 2) off none

/-- `p.SkipAllQuestions()`: skip `n` questions (name + 4 bytes each). -/
def skipQuestions (msg : List Nat) : Nat → Nat → Option Nat
  | 0, off => some off
  | n + 1, off =>
    match parseName msg off with
    | none => none
    | some (_, off2) =>
      if off2 + 4 ≤ msg.length then skipQuestions msg n (off2 + 4) else none

/-- The answer-section loop of `ObserveDNSResponse`: `n` records, building
the CNAME chain (target name → owner name) and the per-owner address lists.
Records outside the internet class, with types other than CNAME/A/AAAA, or
with an empty owner name are skipped (the library skips the pending body on
the next header read). -/
def parseAnswers (msg : List Nat) :
    Nat → Nat → AList String → AList (List Addr) →
    Option (AList String × AList (List Addr))
  | 0, _, chain, recs => some (chain, recs)
  | n + 1, off, chain, recs =>
    match parseName msg off with
    | none => none
    | some (name, off2) =>
      match word16 msg off2, word16 msg (off2 + 2), word16 msg (off2 + 8) with
      | some typ, some cls, some rdlen =>
        let bodyEnd := off2 + 10 + rdlen
        if cls ≠ 1 then
          if bodyEnd ≤ msg.length then parseAnswers msg n bodyEnd chain recs
          else none
        else if typ ≠ 5 ∧ typ ≠ 1 ∧ typ ≠ 28 then
          if bodyEnd ≤ msg.length then parseAnswers msg n bodyEnd chain recs
          else none
        else
          let domain := strTrimSuffix (strToLower name) "."
          if domain = "" then
            if bodyEnd ≤ msg.length then parseAnswers msg n bodyEnd chain recs
            else none
          else if typ = 5 then
            match parseName msg (off2 + 10) with
            | none => none
            | some (cnameRaw, _) =>
              if bodyEnd ≤ msg.length then
                let cname := strTrimSuffix (strToLower cnameRaw) "."
                if cname = "" then parseAnswers msg n bodyEnd chain recs
                else parseAnswers msg n bodyEnd (insertA chain cname domain) recs
              else none
          else if typ = 1 then
            if rdlen = 4 ∧ bodyEnd ≤ msg.length then
              match byteAt msg (off2 + 10), byteAt msg (off2 + 11),
                  byteAt msg (off2 + 12), byteAt msg (off2 + 13) with
              | some b0, some b1, some b2, some b3 =>
                let addr : Addr :=
                  ⟨false, ((b0 * 256 + b1) * 256 + b2) * 256 + b3⟩
                parseAnswers msg n bodyEnd chain
                  (insertA recs domain ((lookupA recs domain).getD [] ++ [addr]))
              | _, _, _, _ => none
            else none
          else
            if rdlen = 16 ∧ bodyEnd ≤ msg.length then
              match ((msg.drop (off2 + 10)).take 16).foldl
                  (fun acc b => acc.map (fun v => v * 256 + b))
                  (some (0 : Nat)) with
              | some v =>
                parseAnswers msg n bodyEnd chain
                  (insertA recs domain
                    ((lookupA recs domain).getD [] ++ [(⟨true, v⟩ : Addr)]))
              | none => none
            else none
      | _, _, _ => none

/-- The parse phase of `ObserveDNSResponse` (header, question skip, answer
walk).  `none` means some section was malformed and the whole message is
dropped. -/
def parseDNSResponse (msg : List Nat) :
    Option (AList String × AList (List Addr)) :=
  if msg.length < 12 then none
  else
    match word16 msg 4, word16 msg 6 with
    | some qd, some an =>
      match skipQuestions msg qd 12 with
      | none => none
      | some off => parseAnswers msg an off [] []
    | _, _ => none

/-! ## `ObserveDNSResponse` -/

/-- The per-owner-name processing loop at the end of `ObserveDNSResponse`
(executed under the lock): find the routed domain by walking the alias
chain, classify each address, refresh the discovered-route record, persist,
and schedule advertise/unadvertise tasks.  `none` models the Go loop
diverging (cyclic alias chain). -/
def observeLoop (wildcards : List String) (controlRoutes : List Prefix)
    (cnameChain : AList String) (now : Nat) :
    List (String × List Addr) → AList (List Addr) → RouteInfo →
    List Call → List QTask →
    Option (AList (List Addr) × RouteInfo × List Call × List QTask)
  | [], doms, store, calls, tasks => some (doms, store, calls, tasks)
  | (domain, addrs) :: rest, doms, store, calls, tasks =>
    match findRoutedDomainLocked wildcards cnameChain (cnameChain.length + 2)
        doms domain with
    | none => none
    | some (doms2, domain2, isRouted) =>
      if isRouted = false then
        observeLoop wildcards controlRoutes cnameChain now rest doms2 store
          calls tasks
      else
        let cl := classifyAddrs controlRoutes domain2 doms2 addrs
        let toAdvertise := cl.2.1
        let toUpdateDate := cl.2.2
        let ri := updateRoutesInDiscoveredForDomain store now domain2
          (toAdvertise ++ toUpdateDate)
        let outDated := outDatedRoutesInDiscoveredForDomain ri now domain2
        observeLoop wildcards controlRoutes cnameChain now rest cl.1 ri
          (calls ++ [Call.updateStore ri])
          (tasks ++ [QTask.advertiseTask domain2 toAdvertise,
            QTask.unadvertiseTask domain2 outDated])

/-- `ObserveDNSResponse(res)`: parse the raw message; on any parse failure
return with the state untouched, no calls and no scheduled tasks; otherwise
process the accumulated address records.  `now` stands for the wall-clock
reading used to date discovered routes. -/
def observeDNSResponse (conn : AppConnector) (store : RouteInfo) (now : Nat)
    (res : List Nat) : Option ObserveResult :=
  match parseDNSResponse res with
  | none => some ⟨conn, store, [], []⟩
  | some (cnameChain, addressRecords) =>
    match observeLoop conn.wildcards conn.controlRoutes cnameChain now
        addressRecords conn.domains store [] [] with
    | none => none
    | some (doms, store2, calls, tasks) =>
      some ⟨{ conn with domains := doms }, store2, calls, tasks⟩

/-! ## The scheduled queue tasks -/

/-- The closure queued by `scheduleAdvertisement(domain, routes...)`: if the
advertise call succeeds (`ok`), each single-IP route's address is added to
the domain's list unless already present. -/
def runAdvertiseTask (conn : AppConnector) (domain : String)
    (routes : List Prefix) (ok : Bool) : AppConnector :=
  if ok = false then conn
  else
    { conn with domains := routes.foldl (fun doms route =>
        if route.isSingleIP then
          if hasDomainAddrList ((lookupA doms domain).getD []) route.addr then
            doms
          else
            insertA doms domain
              (addDomainAddrList ((lookupA doms domain).getD []) route.addr)
        else doms) conn.domains }

/-- The closure queued by `scheduleUndvertisement(domain, routes...)`: if the
unadvertise call succeeds, each single-IP route's address is removed from the
domain's list (`deleteDomainAddrLocked` leaves the map untouched when the
binary search misses). -/
def runUnadvertiseTask (conn : AppConnector) (domain : String)
    (routes : List Prefix) (ok : Bool) : AppConnector :=
  if ok = false then conn
  else
    { conn with domains := routes.foldl (fun doms route =>
        if route.isSingleIP then
          let l := (lookupA doms domain).getD []
          if (binarySearchAddr l route.addr).2 then
            insertA doms domain (deleteDomainAddrList l route.addr)
          else doms
        else doms) conn.domains }

/-! ## Reachable states and the standing list invariants -/

/-- The address list recorded for domain `d` (nil slice if absent). -/
def addrList (conn : AppConnector) (d : String) : List Addr :=
  (lookupA conn.domains d).getD []

/-- Map-level invariant: unique keys; every per-domain list sorted and
duplicate-free. -/
def MapInv (doms : AList (List Addr)) : Prop :=
  keysNodup doms ∧
    ∀ d, SortedAddrs ((lookupA doms d).getD []) ∧
      ((lookupA doms d).getD []).Nodup

theorem MapInv_nil : MapInv [] := by
  refine ⟨by simp [keysNodup], ?_⟩
  intro d
  simp [lookupA, SortedAddrs]

theorem MapInv_insert {doms : AList (List Addr)} (h : MapInv doms)
    {l : List Addr} (hs : SortedAddrs l) (hn : l.Nodup) (dm : String) :
    MapInv (insertA doms dm l) := by
  refine ⟨keysNodup_insertA h.1 dm l, ?_⟩
  intro d
  rw [lookupA_insertA]
  by_cases hd : dm = d
  · simp [hd, hs, hn]
  · simp only [if_neg hd]
    exact h.2 d

theorem MapInv_insert_nil {doms : AList (List Addr)} (h : MapInv doms)
    (dm : String) : MapInv (insertA doms dm []) :=
  MapInv_insert h (by simp [SortedAddrs]) (by simp) dm

theorem MapInv_add {doms : AList (List Addr)} (h : MapInv doms) {dm : String}
    {a : Addr} (ha : a ∉ (lookupA doms dm).getD []) :
    MapInv (insertA doms dm (addDomainAddrList ((lookupA doms dm).getD []) a)) := by
  refine MapInv_insert h (addDomainAddrList_sorted _ a) ?_ dm
  exact addDomainAddrList_nodup (h.2 dm).2 ha

theorem MapInv_delete {doms : AList (List Addr)} (h : MapInv doms)
    (dm : String) (a : Addr) :
    MapInv (insertA doms dm (deleteDomainAddrList ((lookupA doms dm).getD []) a)) :=
  MapInv_insert h (deleteDomainAddrList_sorted (h.2 dm).1 a)
    (deleteDomainAddrList_nodup (h.2 dm).2 a) dm

theorem findRouted_MapInv (w : List String) (ch : AList String) :
    ∀ (fuel : Nat) (doms : AList (List Addr)) (domain : String) out,
    MapInv doms →
    findRoutedDomainLocked w ch fuel doms domain = some out →
    MapInv out.1 := by
  intro fuel
  induction fuel with
  | zero => intro doms domain out _ hr; simp [findRoutedDomainLocked] at hr
  | succ n ih =>
    intro doms domain out hinv hr
    by_cases hhit : (lookupA doms domain).isSome
    · simp only [findRoutedDomainLocked, if_pos hhit] at hr
      cases hr
      exact hinv
    · by_cases hm : w.any (fun wc => hasSuffix domain wc)
      · have hinv2 : MapInv (insertA doms domain []) :=
          MapInv_insert_nil hinv domain
        rcases hch : lookupA ch domain with _ | next
        · simp only [findRoutedDomainLocked, if_neg hhit, hm, if_true, hch] at hr
          cases hr
          exact hinv2
        · simp only [findRoutedDomainLocked, if_neg hhit, hm, if_true, hch] at hr
          exact ih _ next out hinv2 hr
      · rcases hch : lookupA ch domain with _ | next
        · simp only [findRoutedDomainLocked, if_neg hhit, hm, if_false, hch,
            Bool.false_eq_true] at hr
          cases hr
          exact hinv
        · simp only [findRoutedDomainLocked, if_neg hhit, hm, if_false, hch,
            Bool.false_eq_true] at hr
          exact ih _ next out hinv hr

theorem isAddrKnown_MapInv {doms : AList (List Addr)} (cr : List Prefix)
    (dm : String) (a : Addr) (h : MapInv doms) :
    MapInv (isAddrKnownLocked doms cr dm a).2 := by
  unfold isAddrKnownLocked
  split_ifs with h1 h2
  · exact h
  · refine MapInv_add h ?_
    intro hmem
    have := (hasDomainAddrList_iff_mem (h.2 dm).1 a).mpr hmem
    exact h1 this
  · exact h

theorem classify_MapInv (cr : List Prefix) (dm : String) :
    ∀ (addrs : List Addr) (doms : AList (List Addr)), MapInv doms →
    MapInv (classifyAddrs cr dm doms addrs).1 := by
  intro addrs
  induction addrs with
  | nil => intro doms h; simpa [classifyAddrs] using h
  | cons a rest ih =>
    intro doms h
    simp only [classifyAddrs]
    have h2 := isAddrKnown_MapInv cr dm a h
    split_ifs <;> exact ih _ h2

theorem observeLoop_MapInv (w : List String) (cr : List Prefix)
    (ch : AList String) (now : Nat) :
    ∀ (records : List (String × List Addr)) (doms : AList (List Addr))
      (store : RouteInfo) (calls : List Call) (tasks : List QTask) out,
    MapInv doms →
    observeLoop w cr ch now records doms store calls tasks = some out →
    MapInv out.1 := by
  intro records
  induction records with
  | nil =>
    intro doms store calls tasks out h hr
    simp only [observeLoop] at hr
    cases hr
    exact h
  | cons p rest ih =>
    intro doms store calls tasks out h hr
    obtain ⟨domain, addrs⟩ := p
    rcases hf : findRoutedDomainLocked w ch (ch.length + 2) doms domain with
      _ | ⟨doms2, domain2, isRouted⟩
    · simp only [observeLoop, hf] at hr
      cases hr
    · simp only [observeLoop, hf] at hr
      have hinv2 : MapInv doms2 :=
        findRouted_MapInv w ch _ doms domain _ h hf
      by_cases hru : isRouted = false
      · rw [if_pos hru] at hr
        exact ih doms2 store calls tasks out hinv2 hr
      · rw [if_neg hru] at hr
        have hinv3 : MapInv (classifyAddrs cr domain2 doms2 addrs).1 :=
          classify_MapInv cr domain2 addrs doms2 hinv2
        exact ih _ _ _ _ out hinv3 hr

theorem observe_MapInv {conn : AppConnector} {store : RouteInfo} {now : Nat}
    {res : List Nat} {out : ObserveResult} (h : MapInv conn.domains)
    (hr : observeDNSResponse conn store now res = some out) :
    MapInv out.conn.domains := by
  unfold observeDNSResponse at hr
  rcases hp : parseDNSResponse res with _ | ⟨chain, records⟩
  · simp only [hp] at hr
    cases hr
    exact h
  · simp only [hp] at hr
    rcases hl : observeLoop conn.wildcards conn.controlRoutes chain now records
        conn.domains store [] [] with _ | ⟨doms, store2, calls, tasks⟩
    · simp only [hl] at hr
      cases hr
    · simp only [hl] at hr
      cases hr
      exact observeLoop_MapInv _ _ _ _ records conn.domains store [] [] _ h hl

theorem advTask_MapInv {conn : AppConnector} (h : MapInv conn.domains)
    (domain : String) (routes : List Prefix) (ok : Bool) :
    MapInv (runAdvertiseTask conn domain routes ok).domains := by
  unfold runAdvertiseTask
  split_ifs with hok
  · exact h
  · simp only []
    induction routes generalizing conn with
    | nil => exact h
    | cons r rest ih =>
      rw [List.foldl_cons]
      set doms2 := if r.isSingleIP = true then
          if hasDomainAddrList ((lookupA conn.domains domain).getD []) r.addr = true then
            conn.domains
          else
            insertA conn.domains domain
              (addDomainAddrList ((lookupA conn.domains domain).getD []) r.addr)
        else conn.domains with hd2
      have hinv2 : MapInv doms2 := by
        rw [hd2]
        split_ifs with h1 h2
        · exact h
        · refine MapInv_add h ?_
          intro hmem
          exact h2 ((hasDomainAddrList_iff_mem (h.2 domain).1 r.addr).mpr hmem)
        · exact h
      exact @ih { conn with domains := doms2 } hinv2

theorem unadvTask_MapInv {conn : AppConnector} (h : MapInv conn.domains)
    (domain : String) (routes : List Prefix) (ok : Bool) :
    MapInv (runUnadvertiseTask conn domain routes ok).domains := by
  unfold runUnadvertiseTask
  split_ifs with hok
  · exact h
  · simp only []
    induction routes generalizing conn with
    | nil => exact h
    | cons r rest ih =>
      rw [List.foldl_cons]
      set doms2 := if r.isSingleIP = true then
          if (binarySearchAddr ((lookupA conn.domains domain).getD []) r.addr).2 = true then
            insertA conn.domains domain
              (deleteDomainAddrList ((lookupA conn.domains domain).getD []) r.addr)
          else conn.domains
        else conn.domains with hd2
      have hinv2 : MapInv doms2 := by
        rw [hd2]
        split_ifs with h1 h2
        · exact MapInv_delete h domain r.addr
        · exact h
        · exact h
      exact @ih { conn with domains := doms2 } hinv2

theorem updateRoutes_domains (conn : AppConnector) (store : RouteInfo)
    (advOk : List Prefix → Bool) (routes : List Prefix) :
    (updateRoutes conn store advOk routes).1.domains = conn.domains := by
  unfold updateRoutes
  split_ifs <;> rfl

theorem updateDomains_MapInv {conn : AppConnector} (store : RouteInfo)
    (domains : List String) (h : MapInv conn.domains) :
    MapInv (updateDomains conn store domains).1.domains := by
  refine ⟨updateDomains_domains_keysNodup conn store domains, ?_⟩
  intro d
  rw [updateDomains_domains_lookup conn store domains h.1 d]
  split_ifs with h1 h2 h3
  · simp [SortedAddrs]
  · have := h.2 d
    rcases hl : lookupA conn.domains d with _ | v
    · simp [SortedAddrs]
    · rw [hl] at this
      simpa using this
  · have := h.2 d
    rcases hl : lookupA conn.domains d with _ | v
    · simp [SortedAddrs]
    · rw [hl] at this
      simpa using this
  · simp [SortedAddrs]

/-- All connector states the engine can reach: the constructor state followed
by any sequence of the engine's operations — domain replacement, operator
route replacement, DNS observation, queued advertise/unadvertise task
bodies — under arbitrary collaborator behaviour (arbitrary persisted
snapshots, call results and inputs). -/
inductive Reachable : AppConnector → Prop
  | init : Reachable initialConn
  | updDomains {c : AppConnector} (store : RouteInfo) (domains : List String) :
      Reachable c → Reachable (updateDomains c store domains).1
  | updRoutes {c : AppConnector} (store : RouteInfo)
      (advOk : List Prefix → Bool) (routes : List Prefix) :
      Reachable c → Reachable (updateRoutes c store advOk routes).1
  | observe {c : AppConnector} (store : RouteInfo) (now : Nat)
      (res : List Nat) (out : ObserveResult) :
      Reachable c → observeDNSResponse c store now res = some out →
      Reachable out.conn
  | advTask {c : AppConnector} (domain : String) (routes : List Prefix)
      (ok : Bool) :
      Reachable c → Reachable (runAdvertiseTask c domain routes ok)
  | unadvTask {c : AppConnector} (domain : String) (routes : List Prefix)
      (ok : Bool) :
      Reachable c → Reachable (runUnadvertiseTask c domain routes ok)

theorem reachable_MapInv {c : AppConnector} (h : Reachable c) :
    MapInv c.domains := by
  induction h with
  | init => exact MapInv_nil
  | updDomains store domains _ ih => exact updateDomains_MapInv store domains ih
  | updRoutes store advOk routes _ ih =>
    rw [updateRoutes_domains]
    exact ih
  | observe store now res out _ hr ih => exact observe_MapInv ih hr
  | advTask domain routes ok _ ih => exact advTask_MapInv ih domain routes ok
  | unadvTask domain routes ok _ ih => exact unadvTask_MapInv ih domain routes ok

/-! ## Claim theorems -/

/-- **C1.** If domain `d` had discovered addresses and a discovered-route
record, and the domain list is replaced (`updateDomains`) by a list that does
not contain `d` as an exact name but does contain a wildcard entry whose
suffix matches `d`, then `d`'s address list and discovered-route record are
carried forward unchanged into the new exact-domain map and the new
discovered-route map. -/
theorem C1_wildcard_carry_forward
    (conn : AppConnector) (store : RouteInfo) (domains : List String)
    (d : String) (addrs : List Addr) (rec : Option DatedRoute)
    (hndD : keysNodup conn.domains) (hndR : keysNodup store.Discovered)
    (haddr : lookupA conn.domains d = some addrs)
    (hrec : lookupA store.Discovered d = some rec)
    (hnotex : d ∉ normExacts domains)
    (hwild : ∃ wc ∈ normWilds domains, hasSuffix d wc = true) :
    lookupA (updateDomains conn store domains).1.domains d = some addrs ∧
    lookupA (updateDomains conn store domains).2.1.Discovered d = some rec := by
  have hany : (normWilds domains).any (fun wc => hasSuffix d wc) = true := by
    obtain ⟨wc, hmem, hsuf⟩ := hwild
    exact List.any_eq_true.mpr ⟨wc, hmem, hsuf⟩
  constructor
  · rw [updateDomains_domains_lookup conn store domains hndD d,
      if_neg hnotex, if_pos hany, haddr]
  · rw [updateDomains_discovered_lookup conn store domains hndR d,
      if_neg hnotex, if_pos hany, hrec]

def sampleAddrA : Addr := ⟨false, 3232235777⟩

def sampleRec : DatedRoute := ⟨[(Prefix.single sampleAddrA, 5)]⟩

def c1conn : AppConnector := ⟨[("a.example", [sampleAddrA])], [], ["stale"]⟩

def c1store : RouteInfo := ⟨[], [("a.example", some sampleRec)]⟩

theorem C1_witness :
    lookupA (updateDomains c1conn c1store ["*.example", "other.com"]).1.domains
        "a.example" = some [sampleAddrA] ∧
    lookupA (updateDomains c1conn c1store
        ["*.example", "other.com"]).2.1.Discovered "a.example" =
      some (some sampleRec) :=
  C1_wildcard_carry_forward c1conn c1store ["*.example", "other.com"]
    "a.example" [sampleAddrA] (some sampleRec)
    (by decide) (by decide) (by decide) (by decide) (by decide)
    ⟨"example", by decide, by decide⟩

/-- **C9.** If the input list to `updateDomains` contains the same exact
domain `d` more than once, `d`'s previously discovered addresses and
discovered-route record are lost: the first occurrence carries them forward
and deletes `d` from the old maps, and the later occurrence overwrites the
new entries with the now-absent (nil) old-map values, so `d` ends with an
empty address list (and a nil discovered-route pointer) even though it was
previously discovered. -/
theorem C9_duplicate_exact_input_loses_state
    (conn : AppConnector) (store : RouteInfo) (domains : List String)
    (d : String) (addrs : List Addr) (rec : DatedRoute)
    (hndD : keysNodup conn.domains) (hndR : keysNodup store.Discovered)
    (_haddr : lookupA conn.domains d = some addrs)
    (_hrec : lookupA store.Discovered d = some (some rec))
    (hdup : 2 ≤ (normExacts domains).count d) :
    lookupA (updateDomains conn store domains).1.domains d = some [] ∧
    lookupA (updateDomains conn store domains).2.1.Discovered d = some none := by
  have hmem : d ∈ normExacts domains := List.count_pos_iff.mp (by omega)
  constructor
  · rw [updateDomains_domains_lookup conn store domains hndD d,
      if_pos hmem, if_pos hdup]
  · rw [updateDomains_discovered_lookup conn store domains hndR d,
      if_pos hmem, if_pos hdup]

def c9conn : AppConnector := ⟨[("dup.com", [sampleAddrA])], [], []⟩

def c9store : RouteInfo := ⟨[], [("dup.com", some sampleRec)]⟩

theorem C9_witness :
    lookupA (updateDomains c9conn c9store ["dup.com", "dup.com"]).1.domains
        "dup.com" = some [] ∧
    lookupA (updateDomains c9conn c9store
        ["dup.com", "dup.com"]).2.1.Discovered "dup.com" = some none :=
  C9_duplicate_exact_input_loses_state c9conn c9store ["dup.com", "dup.com"]
    "dup.com" [sampleAddrA] sampleRec
    (by decide) (by decide) (by decide) (by decide) (by decide)

/-- **C6.** Applying `updateDomains` twice with the identical input list
leaves the exact-domain map, the wildcard list, and the persisted
discovered-route records in the same state as applying it once, and the
second application makes no advertise or unadvertise calls. -/
theorem C6_replace_domains_idempotent
    (conn : AppConnector) (store : RouteInfo) (domains : List String)
    (hndD : keysNodup conn.domains) (hndR : keysNodup store.Discovered) :
    (∀ k, lookupA (updateDomains (updateDomains conn store domains).1
        (updateDomains conn store domains).2.1 domains).1.domains k =
      lookupA (updateDomains conn store domains).1.domains k) ∧
    (updateDomains (updateDomains conn store domains).1
        (updateDomains conn store domains).2.1 domains).1.wildcards =
      (updateDomains conn store domains).1.wildcards ∧
    (∀ k, lookupA (updateDomains (updateDomains conn store domains).1
        (updateDomains conn store domains).2.1 domains).2.1.Discovered k =
      lookupA (updateDomains conn store domains).2.1.Discovered k) ∧
    (updateDomains (updateDomains conn store domains).1
        (updateDomains conn store domains).2.1 domains).2.1.Corp =
      (updateDomains conn store domains).2.1.Corp ∧
    (∀ c ∈ (updateDomains (updateDomains conn store domains).1
        (updateDomains conn store domains).2.1 domains).2.2,
      c.isAdvertise = false ∧ c.isUnadvertise = false) := by
  have hnd1D : keysNodup (updateDomains conn store domains).1.domains :=
    updateDomains_domains_keysNodup conn store domains
  have hnd1R : keysNodup (updateDomains conn store domains).2.1.Discovered :=
    updateDomains_discovered_keysNodup conn store domains
  refine ⟨?_, rfl, ?_, rfl, ?_⟩
  · intro k
    rw [updateDomains_domains_lookup _ _ domains hnd1D k,
      updateDomains_domains_lookup conn store domains hndD k]
    by_cases hex : k ∈ normExacts domains
    · rw [if_pos hex, if_pos hex]
      by_cases hc : 2 ≤ (normExacts domains).count k
      · rw [if_pos hc, if_pos hc]
      · rw [if_neg hc, if_neg hc]
        simp
    · rw [if_neg hex, if_neg hex]
      by_cases hw : (normWilds domains).any (fun wc => hasSuffix k wc) = true
      · rw [if_pos hw, if_pos hw]
      · rw [if_neg hw, if_neg hw]
  · intro k
    rw [updateDomains_discovered_lookup _ _ domains hnd1R k,
      updateDomains_discovered_lookup conn store domains hndR k]
    by_cases hex : k ∈ normExacts domains
    · rw [if_pos hex, if_pos hex]
      by_cases hc : 2 ≤ (normExacts domains).count k
      · rw [if_pos hc, if_pos hc]
      · rw [if_neg hc, if_neg hc]
        simp
    · rw [if_neg hex, if_neg hex]
      by_cases hw : (normWilds domains).any (fun wc => hasSuffix k wc) = true
      · rw [if_pos hw, if_pos hw]
      · rw [if_neg hw, if_neg hw]
  · intro c hc
    rw [updateDomains_calls] at hc
    simp only [List.mem_singleton] at hc
    subst hc
    exact ⟨rfl, rfl⟩

def c6conn : AppConnector := ⟨[("keep.com", [sampleAddrA])], [], []⟩

def c6store : RouteInfo := ⟨[], [("keep.com", some sampleRec)]⟩

theorem C6_witness :
    (∀ k, lookupA (updateDomains (updateDomains c6conn c6store
        ["keep.com", "*.example"]).1
        (updateDomains c6conn c6store ["keep.com", "*.example"]).2.1
        ["keep.com", "*.example"]).1.domains k =
      lookupA (updateDomains c6conn c6store
        ["keep.com", "*.example"]).1.domains k) ∧
    (updateDomains (updateDomains c6conn c6store ["keep.com", "*.example"]).1
        (updateDomains c6conn c6store ["keep.com", "*.example"]).2.1
        ["keep.com", "*.example"]).1.wildcards =
      (updateDomains c6conn c6store ["keep.com", "*.example"]).1.wildcards ∧
    (∀ k, lookupA (updateDomains (updateDomains c6conn c6store
        ["keep.com", "*.example"]).1
        (updateDomains c6conn c6store ["keep.com", "*.example"]).2.1
        ["keep.com", "*.example"]).2.1.Discovered k =
      lookupA (updateDomains c6conn c6store
        ["keep.com", "*.example"]).2.1.Discovered k) ∧
    (updateDomains (updateDomains c6conn c6store ["keep.com", "*.example"]).1
        (updateDomains c6conn c6store ["keep.com", "*.example"]).2.1
        ["keep.com", "*.example"]).2.1.Corp =
      (updateDomains c6conn c6store ["keep.com", "*.example"]).2.1.Corp ∧
    (∀ c ∈ (updateDomains (updateDomains c6conn c6store
        ["keep.com", "*.example"]).1
        (updateDomains c6conn c6store ["keep.com", "*.example"]).2.1
        ["keep.com", "*.example"]).2.2,
      c.isAdvertise = false ∧ c.isUnadvertise = false) :=
  C6_replace_domains_idempotent c6conn c6store ["keep.com", "*.example"]
    (by decide) (by decide)

/-! ### C3 / C4: `updateRoutes` -/

/-- The subsumption condition of `updateRoutes`' inner loop. -/
def subsumedBy (r : Prefix) (a : Addr) : Prop :=
  r.contains a = true ∧ Prefix.single a ≠ r

instance (r : Prefix) (a : Addr) : Decidable (subsumedBy r a) := by
  unfold subsumedBy; infer_instance

/-- All addresses of the domains map in scan order. -/
def domainAddrsFlat (doms : AList (List Addr)) : List Addr :=
  (doms.map Prod.snd).flatten

theorem firstSubsumedInAddrs_none {r : Prefix} :
    ∀ {l : List Addr}, firstSubsumedInAddrs r l = none →
      ∀ b ∈ l, ¬ subsumedBy r b := by
  intro l
  induction l with
  | nil => intro _ b hb; cases hb
  | cons a rest ih =>
    intro h b hb
    simp only [firstSubsumedInAddrs] at h
    split_ifs at h with hc
    rcases List.mem_cons.mp hb with hb | hb
    · subst hb; exact fun hs => hc ⟨hs.1, hs.2⟩
    · exact ih h b hb

theorem firstSubsumedInAddrs_some {r : Prefix} :
    ∀ {l : List Addr} {a : Addr}, firstSubsumedInAddrs r l = some a →
      subsumedBy r a ∧
      ∃ l1 l2, l = l1 ++ a :: l2 ∧ ∀ b ∈ l1, ¬ subsumedBy r b := by
  intro l
  induction l with
  | nil => intro a h; cases h
  | cons x rest ih =>
    intro a h
    simp only [firstSubsumedInAddrs] at h
    split_ifs at h with hc
    · cases h
      exact ⟨⟨hc.1, hc.2⟩, [], rest, rfl, by simp⟩
    · obtain ⟨hsub, l1, l2, heq, hnone⟩ := ih h
      refine ⟨hsub, x :: l1, l2, by simp [heq], ?_⟩
      intro b hb
      rcases List.mem_cons.mp hb with hb | hb
      · subst hb; exact fun hs => hc ⟨hs.1, hs.2⟩
      · exact hnone b hb

theorem firstSubsumedInDomains_some {r : Prefix} :
    ∀ {doms : AList (List Addr)} {a : Addr},
      firstSubsumedInDomains r doms = some a →
      subsumedBy r a ∧
      ∃ l1 l2, domainAddrsFlat doms = l1 ++ a :: l2 ∧
        ∀ b ∈ l1, ¬ subsumedBy r b := by
  intro doms
  induction doms with
  | nil => intro a h; cases h
  | cons p rest ih =>
    intro a h
    obtain ⟨dm, addrs⟩ := p
    simp only [firstSubsumedInDomains] at h
    rcases hf : firstSubsumedInAddrs r addrs with _ | b
    · simp only [hf] at h
      obtain ⟨hsub, l1, l2, heq, hnone⟩ := ih h
      refine ⟨hsub, addrs ++ l1, l2, ?_, ?_⟩
      · simp only [domainAddrsFlat] at heq ⊢
        simp [heq]
      · intro b hb
        rcases List.mem_append.mp hb with hb | hb
        · exact firstSubsumedInAddrs_none hf b hb
        · exact hnone b hb
    · simp only [hf] at h
      cases h
      obtain ⟨hsub, l1, l2, heq, hnone⟩ := firstSubsumedInAddrs_some hf
      refine ⟨hsub, l1, l2 ++ domainAddrsFlat rest, ?_, hnone⟩
      simp only [domainAddrsFlat]
      simp [heq]

/-- **C3.** In `updateRoutes`, after the new prefix set is advertised, at
most one discovered single-address route is unadvertised per new prefix `r`:
the single-address prefix of the first address `a` (in scan order over the
per-domain address lists) with `r` containing `a` and `Prefix.single a ≠ r`;
after a match the scan moves to the next prefix, and an address whose
single-address prefix exactly equals `r` is never removed for `r`. -/
theorem C3_subsumption_one_per_prefix
    (conn : AppConnector) (store : RouteInfo) (advOk : List Prefix → Bool)
    (routes : List Prefix) (hne : conn.controlRoutes ≠ routes)
    (hok : advOk routes = true) :
    (updateRoutes conn store advOk routes).2.2 =
      [Call.unadvertise (store.Corp.filter (fun p => decide (p ∉ routes))),
       Call.advertise routes,
       Call.unadvertise (routes.filterMap (fun r =>
         (firstSubsumedInDomains r conn.domains).map Prefix.single)),
       Call.updateStore { store with Corp := routes }] ∧
    (routes.filterMap (fun r =>
        (firstSubsumedInDomains r conn.domains).map Prefix.single)).length ≤
      routes.length ∧
    (∀ r a, firstSubsumedInDomains r conn.domains = some a →
      r.contains a = true ∧ Prefix.single a ≠ r ∧
      ∃ l1 l2, domainAddrsFlat conn.domains = l1 ++ a :: l2 ∧
        ∀ b ∈ l1, ¬ (r.contains b = true ∧ Prefix.single b ≠ r)) := by
  refine ⟨?_, ?_, ?_⟩
  · unfold updateRoutes
    rw [if_neg hne, if_pos hok]
  · exact List.length_filterMap_le _ _
  · intro r a hf
    obtain ⟨hsub, l1, l2, heq, hnone⟩ := firstSubsumedInDomains_some hf
    exact ⟨hsub.1, hsub.2, l1, l2, heq,
      fun b hb hs => hnone b hb ⟨hs.1, hs.2⟩⟩

def sampleAddrB : Addr := ⟨false, 167772161⟩

def c3pfx : Prefix := ⟨⟨false, 167772160⟩, 24⟩

def c3conn : AppConnector := ⟨[("covered.com", [sampleAddrB])], [], []⟩

def c3store : RouteInfo := ⟨[], []⟩

theorem C3_witness :
    (updateRoutes c3conn c3store (fun _ => true) [c3pfx]).2.2 =
      [Call.unadvertise (c3store.Corp.filter
          (fun p => decide (p ∉ [c3pfx]))),
       Call.advertise [c3pfx],
       Call.unadvertise ([c3pfx].filterMap (fun r =>
         (firstSubsumedInDomains r c3conn.domains).map Prefix.single)),
       Call.updateStore { c3store with Corp := [c3pfx] }] ∧
    (([c3pfx].filterMap (fun r =>
        (firstSubsumedInDomains r c3conn.domains).map Prefix.single)).length ≤
      ([c3pfx] : List Prefix).length) ∧
    (∀ r a, firstSubsumedInDomains r c3conn.domains = some a →
      r.contains a = true ∧ Prefix.single a ≠ r ∧
      ∃ l1 l2, domainAddrsFlat c3conn.domains = l1 ++ a :: l2 ∧
        ∀ b ∈ l1, ¬ (r.contains b = true ∧ Prefix.single b ≠ r)) :=
  C3_subsumption_one_per_prefix c3conn c3store (fun _ => true) [c3pfx]
    (by decide) rfl

/-- **C4.** If the `AdvertiseRoute` call for the new operator prefix set
fails, `updateRoutes` returns without setting the in-memory `controlRoutes`
baseline and without persisting the updated snapshot, so the previous
baseline stays in force; `controlRoutes` and the persisted snapshot are
updated only when the advertise call succeeds. -/
theorem C4_advertise_failure_preserves_baseline
    (conn : AppConnector) (store : RouteInfo) (advOk : List Prefix → Bool)
    (routes : List Prefix) (hne : conn.controlRoutes ≠ routes) :
    (advOk routes = false →
      (updateRoutes conn store advOk routes).1 = conn ∧
      (updateRoutes conn store advOk routes).2.1 = store) ∧
    (advOk routes = true →
      (updateRoutes conn store advOk routes).1.controlRoutes = routes ∧
      (updateRoutes conn store advOk routes).2.1 =
        { store with Corp := routes }) := by
  constructor
  · intro hfail
    unfold updateRoutes
    rw [if_neg hne, if_neg (by simp [hfail])]
    exact ⟨rfl, rfl⟩
  · intro hok
    unfold updateRoutes
    rw [if_neg hne, if_pos hok]
    exact ⟨rfl, rfl⟩

def c4conn : AppConnector := ⟨[], [], []⟩

def c4store : RouteInfo := ⟨[⟨⟨false, 5⟩, 32⟩], []⟩

theorem C4_witness :
    ((fun (_ : List Prefix) => false) [c3pfx] = false →
      (updateRoutes c4conn c4store (fun _ => false) [c3pfx]).1 = c4conn ∧
      (updateRoutes c4conn c4store (fun _ => false) [c3pfx]).2.1 = c4store) ∧
    ((fun (_ : List Prefix) => false) [c3pfx] = true →
      (updateRoutes c4conn c4store (fun _ => false) [c3pfx]).1.controlRoutes =
        [c3pfx] ∧
      (updateRoutes c4conn c4store (fun _ => false) [c3pfx]).2.1 =
        { c4store with Corp := [c3pfx] }) :=
  C4_advertise_failure_preserves_baseline c4conn c4store (fun _ => false)
    [c3pfx] (by decide)

/-! ### C2: the matching walk of `findRoutedDomainLocked` -/

/-- **C2 counterexample.** As stated, the claim says that on a wildcard-suffix
match the walk stops with that name matched.  On the code it does not: with
the exact map empty, wildcard list `["example"]` and alias edge
`t.example → zzz`, the name `t.example` matches the wildcard (and the entry
is created), yet the walk follows the alias edge, recomputes the flag at
`zzz`, and returns `("zzz", false)` — not `("t.example", true)`. -/
theorem C2_counterexample :
    hasSuffix "t.example" "example" = true ∧
    findRoutedDomainLocked ["example"] [("t.example", "zzz")] 3 [] "t.example" =
      some ([("t.example", [])], "zzz", false) ∧
    findRoutedDomainLocked ["example"] [("t.example", "zzz")] 3 [] "t.example" ≠
      some ([("t.example", [])], "t.example", true) := by
  refine ⟨by decide, by decide, by decide⟩

/-- **C2 (amended).** In the walk, the exact-domain map is checked first; a
name not in it is checked against the wildcard suffixes, and on a wildcard
match an entry for the name is dynamically created in the exact-domain map —
but the walk stops there (with the name matched) only when the name has no
outgoing alias edge.  If an alias edge exists the walk still follows it and
the match flag is recomputed at the next name, so the result is decided at
the name where the walk ends (an exact-map hit, or the end of the chain with
its own wildcard check); addresses may therefore be attributed to a later
name of the chain, or discarded, despite the wildcard match. -/
theorem C2_amended_wildcard_walk
    (w : List String) (ch : AList String) (fuel : Nat)
    (doms : AList (List Addr)) (domain : String)
    (hhit : (lookupA doms domain).isSome = false)
    (hwild : w.any (fun wc => hasSuffix domain wc) = true) :
    (lookupA ch domain = none →
      findRoutedDomainLocked w ch (fuel + 1) doms domain =
        some (insertA doms domain [], domain, true)) ∧
    (∀ next, lookupA ch domain = some next →
      findRoutedDomainLocked w ch (fuel + 1) doms domain =
        findRoutedDomainLocked w ch fuel (insertA doms domain []) next) := by
  have hhit2 : ¬ (lookupA doms domain).isSome = true := by simp [hhit]
  constructor
  · intro hch
    simp only [findRoutedDomainLocked, if_neg hhit2, hwild, if_true, hch]
  · intro next hch
    simp only [findRoutedDomainLocked, if_neg hhit2, hwild, if_true, hch]

theorem C2_amended_witness :
    (lookupA [("t.example", "zzz")] "t.example" = none →
      findRoutedDomainLocked ["example"] [("t.example", "zzz")] 3 []
          "t.example" =
        some (insertA [] "t.example" [], "t.example", true)) ∧
    (∀ next, lookupA [("t.example", "zzz")] "t.example" = some next →
      findRoutedDomainLocked ["example"] [("t.example", "zzz")] 3 []
          "t.example" =
        findRoutedDomainLocked ["example"] [("t.example", "zzz")] 2
          (insertA [] "t.example" []) next) :=
  C2_amended_wildcard_walk ["example"] [("t.example", "zzz")] 2 [] "t.example"
    (by decide) (by decide)

/-! ### C5: malformed DNS messages -/

/-- **C5.** For every input byte string on which DNS message parsing fails
(unparseable header, failed question skip, failed answer header or failed
resource parse — all the `none` cases of `parseDNSResponse`),
`ObserveDNSResponse` returns normally with the connector state (exact-domain
map, wildcard list, operator routes) and the persisted discovered-route state
unchanged, makes no store-write calls, schedules no advertise or unadvertise
tasks, and signals nothing to the caller. -/
theorem C5_parse_failure_no_effect
    (conn : AppConnector) (store : RouteInfo) (now : Nat) (res : List Nat)
    (hfail : parseDNSResponse res = none) :
    observeDNSResponse conn store now res = some ⟨conn, store, [], []⟩ := by
  unfold observeDNSResponse
  rw [hfail]

def c5conn : AppConnector :=
  ⟨[("a.example", [sampleAddrA])], [c3pfx], ["example"]⟩

def c5store : RouteInfo := ⟨[c3pfx], [("a.example", some sampleRec)]⟩

/-- A message truncated right after the header (QDCOUNT = 0, ANCOUNT = 1 but
no answer bytes follow) fails to parse and leaves everything unchanged. -/
theorem C5_witness :
    observeDNSResponse c5conn c5store 7
        [0, 0, 0, 0, 0, 0, 0, 1, 0, 0, 0, 0] =
      some ⟨c5conn, c5store, [], []⟩ :=
  C5_parse_failure_no_effect c5conn c5store 7
    [0, 0, 0, 0, 0, 0, 0, 1, 0, 0, 0, 0] (by decide)

/-! ### C7: sortedness and binary-search / linear-scan agreement -/

/-- An insertion (`addDomainAddrLocked`) or removal
(`deleteDomainAddrLocked`) on one domain's list. -/
inductive AddrOp where
  | ins (a : Addr)
  | del (a : Addr)
deriving DecidableEq, Repr

def applyAddrOp (l : List Addr) : AddrOp → List Addr
  | .ins a => addDomainAddrList l a
  | .del a => deleteDomainAddrList l a

def applyAddrOps (l : List Addr) (ops : List AddrOp) : List Addr :=
  ops.foldl applyAddrOp l

theorem applyAddrOps_sorted : ∀ (ops : List AddrOp) (l : List Addr),
    SortedAddrs l → SortedAddrs (applyAddrOps l ops) := by
  intro ops
  induction ops with
  | nil => intro l h; exact h
  | cons op rest ih =>
    intro l h
    have hstep : SortedAddrs (applyAddrOp l op) := by
      cases op with
      | ins a => exact addDomainAddrList_sorted l a
      | del a => exact deleteDomainAddrList_sorted h a
    simpa [applyAddrOps, List.foldl_cons] using ih (applyAddrOp l op) hstep

/-- **C7.** After any sequence of insertions (`addDomainAddrLocked`) and
removals (`deleteDomainAddrLocked`) starting from a sorted list (every
per-domain list starts empty), the list is still sorted by address value,
and the binary-search membership test (`hasDomainAddrLocked`) agrees with a
linear scan of the same list at every address. -/
theorem C7_sorted_and_search_agrees
    (ops : List AddrOp) (l : List Addr) (hs : SortedAddrs l) :
    SortedAddrs (applyAddrOps l ops) ∧
    ∀ a, hasDomainAddrList (applyAddrOps l ops) a =
      linearScanAddr (applyAddrOps l ops) a := by
  have hsorted := applyAddrOps_sorted ops l hs
  refine ⟨hsorted, ?_⟩
  intro a
  have h1 := hasDomainAddrList_iff_mem hsorted a
  have h2 := linearScanAddr_iff_mem (applyAddrOps l ops) a
  cases hv : hasDomainAddrList (applyAddrOps l ops) a <;>
    cases hw : linearScanAddr (applyAddrOps l ops) a
  · rfl
  · have := h1.mpr (h2.mp hw)
    rw [hv] at this
    cases this
  · have := h2.mpr (h1.mp hv)
    rw [hw] at this
    cases this
  · rfl

def sampleAddrC : Addr := ⟨true, 42⟩

theorem C7_witness :
    SortedAddrs (applyAddrOps []
      [AddrOp.ins sampleAddrC, AddrOp.ins sampleAddrA,
       AddrOp.ins sampleAddrB, AddrOp.del sampleAddrA]) ∧
    ∀ a, hasDomainAddrList (applyAddrOps []
        [AddrOp.ins sampleAddrC, AddrOp.ins sampleAddrA,
         AddrOp.ins sampleAddrB, AddrOp.del sampleAddrA]) a =
      linearScanAddr (applyAddrOps []
        [AddrOp.ins sampleAddrC, AddrOp.ins sampleAddrA,
         AddrOp.ins sampleAddrB, AddrOp.del sampleAddrA]) a :=
  C7_sorted_and_search_agrees
    [AddrOp.ins sampleAddrC, AddrOp.ins sampleAddrA,
     AddrOp.ins sampleAddrB, AddrOp.del sampleAddrA] [] (by decide)

/-! ### C8: no duplicate addresses in any reachable state -/

/-- **C8.** In every reachable connector state, no per-domain address list
contains the same address twice: every path that inserts an address
(`isAddrKnownLocked`'s control-route shortcut and the scheduled advertise
task) checks membership first, so `addDomainAddrLocked` is never applied to
an address already present, and the duplicate-free property is an invariant
of all the engine's operations. -/
theorem C8_no_duplicate_addresses {c : AppConnector} (h : Reachable c) :
    ∀ d, (addrList c d).Nodup :=
  fun d => ((reachable_MapInv h).2 d).2

theorem C8_witness :
    (addrList (runAdvertiseTask (runAdvertiseTask initialConn "w.com"
        [Prefix.single sampleAddrA] true) "w.com"
        [Prefix.single sampleAddrA] true) "w.com").Nodup :=
  C8_no_duplicate_addresses
    (Reachable.advTask "w.com" [Prefix.single sampleAddrA] true
      (Reachable.advTask "w.com" [Prefix.single sampleAddrA] true
        Reachable.init)) "w.com" 

/-! ### C10: control-route-covered addresses -/

theorem single_inj {a b : Addr} (h : Prefix.single a = Prefix.single b) :
    a = b := by
  simpa [Prefix.single] using congrArg Prefix.addr h

theorem isAddrKnown_true_of_covered {doms : AList (List Addr)}
    {cr : List Prefix} {dm : String} {a : Addr}
    (hcov : cr.any (fun r => r.contains a) = true) :
    (isAddrKnownLocked doms cr dm a).1 = true := by
  unfold isAddrKnownLocked
  rw [if_pos hcov]
  split_ifs <;> rfl

theorem isAddrKnown_false {doms : AList (List Addr)} {cr : List Prefix}
    {dm : String} {a : Addr}
    (h : (isAddrKnownLocked doms cr dm a).1 = false) :
    hasDomainAddrList ((lookupA doms dm).getD []) a = false ∧
    cr.any (fun r => r.contains a) = false ∧
    (isAddrKnownLocked doms cr dm a).2 = doms := by
  unfold isAddrKnownLocked at h ⊢
  split_ifs at h ⊢ with h1 h2
  exact ⟨by simpa using h1, by simpa using h2, rfl⟩

theorem isAddrKnown_superset (doms : AList (List Addr)) (cr : List Prefix)
    (dm : String) (a : Addr) (j : String) (x : Addr)
    (hx : x ∈ (lookupA doms j).getD []) :
    x ∈ (lookupA (isAddrKnownLocked doms cr dm a).2 j).getD [] := by
  unfold isAddrKnownLocked
  split_ifs with h1 h2
  · exact hx
  · simp only []
    rw [lookupA_insertA]
    by_cases hj : dm = j
    · subst hj
      rw [if_pos rfl]
      simp only [Option.getD_some]
      exact (addDomainAddrList_mem _ _ _).mpr (Or.inl hx)
    · rw [if_neg hj]
      exact hx
  · exact hx

theorem classify_adv_not_covered (cr : List Prefix) (dm : String) (a : Addr)
    (hcov : cr.any (fun r => r.contains a) = true) :
    ∀ (addrs : List Addr) (doms : AList (List Addr)),
    Prefix.single a ∉ (classifyAddrs cr dm doms addrs).2.1 := by
  intro addrs
  induction addrs with
  | nil => intro doms; simp [classifyAddrs]
  | cons b rest ih =>
    intro doms
    simp only [classifyAddrs]
    split_ifs with hknown
    · exact ih _
    · intro hmem
      rcases List.mem_cons.mp hmem with hm | hm
      · have hab : a = b := single_inj hm
        subst hab
        exact hknown (isAddrKnown_true_of_covered hcov)
      · exact absurd hm (ih _)

theorem classify_adv_char (cr : List Prefix) (dm : String) :
    ∀ (addrs : List Addr) (doms : AList (List Addr)), MapInv doms →
    ∀ p, p ∈ (classifyAddrs cr dm doms addrs).2.1 →
    ∃ b, b ∈ addrs ∧ p = Prefix.single b ∧
      cr.any (fun r => r.contains b) = false ∧
      b ∉ (lookupA doms dm).getD [] := by
  intro addrs
  induction addrs with
  | nil => intro doms _ p hp; simp [classifyAddrs] at hp
  | cons b rest ih =>
    intro doms hinv p hp
    simp only [classifyAddrs] at hp
    have hinv2 := isAddrKnown_MapInv cr dm b hinv
    split_ifs at hp with hknown
    · obtain ⟨x, hx, hpx, hcov, hnot⟩ := ih _ hinv2 p hp
      refine ⟨x, List.mem_cons_of_mem b hx, hpx, hcov, ?_⟩
      intro hmem
      exact hnot (isAddrKnown_superset doms cr dm b dm x hmem)
    · have hku : (isAddrKnownLocked doms cr dm b).1 = false := by
        cases hk : (isAddrKnownLocked doms cr dm b).1
        · rfl
        · exact absurd hk hknown
      obtain ⟨hhas, hcov, heq⟩ := isAddrKnown_false hku
      rcases List.mem_cons.mp hp with hpb | hp2
      · refine ⟨b, List.mem_cons_self b rest, hpb, hcov, ?_⟩
        intro hmem
        have := (hasDomainAddrList_iff_mem (hinv.2 dm).1 b).mpr hmem
        rw [hhas] at this
        cases this
      · rw [heq] at hp2
        obtain ⟨x, hx, hpx, hcov2, hnot⟩ := ih doms hinv p hp2
        exact ⟨x, List.mem_cons_of_mem b hx, hpx, hcov2, hnot⟩

/-- **C10.** For a routed domain `dm` and an address `a` observed for it, if
`a` is not yet in `dm`'s list but some control route contains `a`, then the
classification in `ObserveDNSResponse` reports `a` as already known and
inserts it into `dm`'s list immediately (inside the otherwise-read path);
a single-address advertise task is never scheduled for `a`, and an address
reaches the advertise list only if no control route covers it and it was not
already in the list. -/
theorem C10_control_covered_addresses
    (cr : List Prefix) (dm : String) (a : Addr) (doms : AList (List Addr))
    (hinv : MapInv doms)
    (hcov : cr.any (fun r => r.contains a) = true)
    (hnot : hasDomainAddrList ((lookupA doms dm).getD []) a = false) :
    ((isAddrKnownLocked doms cr dm a).1 = true ∧
      a ∈ (lookupA (isAddrKnownLocked doms cr dm a).2 dm).getD []) ∧
    (∀ addrs, Prefix.single a ∉ (classifyAddrs cr dm doms addrs).2.1) ∧
    (∀ addrs p, p ∈ (classifyAddrs cr dm doms addrs).2.1 →
      ∃ b, b ∈ addrs ∧ p = Prefix.single b ∧
        cr.any (fun r => r.contains b) = false ∧
        b ∉ (lookupA doms dm).getD []) := by
  refine ⟨⟨isAddrKnown_true_of_covered hcov, ?_⟩, ?_, ?_⟩
  · unfold isAddrKnownLocked
    rw [if_neg (by simp [hnot]), if_pos hcov]
    simp only []
    rw [lookupA_insertA, if_pos rfl]
    simp only [Option.getD_some]
    exact (addDomainAddrList_mem _ _ _).mpr (Or.inr rfl)
  · intro addrs
    exact classify_adv_not_covered cr dm a hcov addrs doms
  · intro addrs p hp
    exact classify_adv_char cr dm addrs doms hinv p hp

theorem C10_witness :
    ((isAddrKnownLocked [] [c3pfx] "covered.com" sampleAddrB).1 = true ∧
      sampleAddrB ∈
        (lookupA (isAddrKnownLocked [] [c3pfx] "covered.com"
          sampleAddrB).2 "covered.com").getD []) ∧
    (∀ addrs, Prefix.single sampleAddrB ∉
      (classifyAddrs [c3pfx] "covered.com" [] addrs).2.1) ∧
    (∀ addrs p, p ∈ (classifyAddrs [c3pfx] "covered.com" [] addrs).2.1 →
      ∃ b, b ∈ addrs ∧ p = Prefix.single b ∧
        ([c3pfx] : List Prefix).any (fun r => r.contains b) = false ∧
        b ∉ (lookupA ([] : AList (List Addr)) "covered.com").getD []) :=
  C10_control_covered_addresses [c3pfx] "covered.com" sampleAddrB []
    MapInv_nil (by decide) (by decide)

end Appc
